import Mathlib

/-!
# A verification model of the stylus-sprite layout engine

This file gives a shallow embedding of the core of the `stylus-sprite`
package (the `Sprite` prototype of `stylus-sprite.js`): the option
parser/validator (`validate`), the registry (`spritefunc`), the image
resolution pass (`processImage` driven by `build`), and the drawing /
placeholder-substitution pass (`makeMap`).  JavaScript numbers are modelled
as integers (`Int`): every numeric value exercised by the source's option
grammar and geometry is integral; decimal fractions, exponent/hex literals
and infinities of JS `Number` are outside the model.  JavaScript strings are
modelled as `String`/`List Char`.  All definitions are executable with
structural recursion so that concrete runs evaluate by `decide`/`rfl`.
-/

namespace StylusSprite

/-- A JavaScript value as it appears in the image attribute records:
a number, a string, or a boolean.  Carries JS truthiness. -/
inductive JSVal where
  | num (n : Int)
  | str (s : String)
  | bool (b : Bool)
deriving DecidableEq, Repr

/-- JS truthiness of a `JSVal` (`NaN` never reaches a record: `validate` throws). -/
def JSVal.truthy : JSVal → Bool
  | .num n => n != 0
  | .str s => s != ""
  | .bool b => b

/-- JS `a || b` on values. -/
def jsOr (a b : JSVal) : JSVal := if a.truthy then a else b

/-- JS `a && b` on values. -/
def jsAnd (a b : JSVal) : JSVal := if a.truthy then b else a

/-! ## String utilities (JS `split`, `trim`, `toLowerCase` on single-char separators) -/

/-- Auxiliary for `jsSplit`: accumulates the current field (reversed). -/
def splitAux (sep : Char) : List Char → List Char → List (List Char)
  | [], acc => [acc.reverse]
  | c :: cs, acc =>
    if c = sep then acc.reverse :: splitAux sep cs []
    else splitAux sep cs (c :: acc)

/-- JS `s.split(sep)` for a one-character separator (always non-empty result). -/
def jsSplit (sep : Char) (s : String) : List String :=
  (splitAux sep s.data []).map String.mk

/-- Characters removed by JS `String.prototype.trim`. -/
def isJsSpace (c : Char) : Bool := c.isWhitespace

/-- JS `s.trim()`. -/
def jsTrim (s : String) : String :=
  ⟨((s.data.dropWhile isJsSpace).reverse.dropWhile isJsSpace).reverse⟩

/-- JS `s.toLowerCase()` (ASCII, which is all the source relies on). -/
def jsToLower (s : String) : String := ⟨s.data.map Char.toLower⟩

/-- JS `join(":")` used to re-assemble a value that itself contains colons. -/
def joinColon : List String → String
  | [] => ""
  | [s] => s
  | s :: rest => s ++ ":" ++ joinColon rest

/-! ## Decimal rendering and parsing of integers -/

/-- Fuel-driven accumulator producing the decimal digits of `n` (most
significant first, prepended to `acc`). -/
def natStrAux : Nat → Nat → List Char → List Char
  | 0, _, acc => acc
  | fuel + 1, n, acc =>
    if n = 0 then acc else natStrAux fuel (n / 10) (Nat.digitChar (n % 10) :: acc)

/-- Decimal rendering of a natural number, as JS string coercion produces it. -/
def jsNatStr (n : Nat) : List Char :=
  if n = 0 then ['0'] else natStrAux n n []

/-- Decimal rendering of an integer, as JS string coercion produces it
(for integral JS numbers). -/
def jsIntStr (i : Int) : List Char :=
  if i < 0 then '-' :: jsNatStr (-i).toNat else jsNatStr i.toNat

/-- Digit-string parser: `some` value iff the list is non-empty and all digits. -/
def parseDigitsAux : List Char → Nat → Option Nat
  | [], acc => some acc
  | c :: cs, acc =>
    if c.isDigit then parseDigitsAux cs (acc * 10 + (c.toNat - '0'.toNat)) else none

/-- Parse a non-empty all-digit string. -/
def parseDigits : List Char → Option Nat
  | [] => none
  | l => parseDigitsAux l 0

/-- Model of JS `Number(value)` as used by `validate`, restricted to
optionally-signed decimal integer literals; `Number("") = 0`, and the
absent value (the number `0` in the source, when a clause has no colon)
is 0.  Returns `none` for NaN. -/
def jsNumber : Option String → Option Int
  | none => some 0
  | some s =>
    match s.data with
    | [] => some 0
    | '-' :: rest => (parseDigits rest).map (fun n => -(n : Int))
    | '+' :: rest => (parseDigits rest).map (fun n => (n : Int))
    | l => (parseDigits l).map (fun n => (n : Int))

/-! ## The attribute schema (`Sprite.prototype.keys`) and `validate` -/

/-- The type of an option key: `number`, `predefined` (with allowed values),
or `boolean`. -/
inductive KeyType where
  | number
  | predefined (values : List String)
  | boolean
deriving DecidableEq, Repr

/-- `Sprite.prototype.keys`: the valid key names and their value types. -/
def keys : String → Option KeyType
  | "width" => some .number
  | "height" => some .number
  | "align" => some (.predefined ["block", "left", "center", "right"])
  | "valign" => some (.predefined ["block", "bottom", "middle", "top"])
  | "resize" => some .boolean
  | "repeat" => some (.predefined ["no", "x", "y"])
  | "limit-repeat-x" => some .number
  | "limit-repeat-y" => some .number
  | "totalwidth" => some .number
  | "totalheight" => some .number
  | "padwidth" => some .number
  | "padheight" => some .number
  | _ => none

/-- `Sprite.prototype.validate(key, value)`.  `value` is `none` when the
clause had no colon (the source then passes the number `0`; for the boolean
type `0 == "0"` is loosely true and `!0` is true, so it maps to `false`,
and for the predefined type `indexOf(0) < 0` always fails). -/
def validate (key : String) (value : Option String) : Except String JSVal :=
  match keys key with
  | none => .error ("Invalid key '" ++ key ++ "'")
  | some .number =>
    match jsNumber value with
    | none => .error ("Invalid number value '" ++ key ++ "' for " ++ key)
    | some n => .ok (.num n)
  | some (.predefined values) =>
    match value with
    | some s =>
      if s ∈ values then .ok (.str s)
      else .error ("Unknown value '" ++ s ++ "' for " ++ key)
    | none => .error ("Unknown value '0' for " ++ key)
  | some .boolean =>
    .ok (.bool (match value with
      | some s => !(s == "false" || s == "0" || s == "")
      | none => false))

/-! ## Image attribute records -/

/-- A fully-merged image attribute record (`imgdata` in the source before the
bookkeeping fields `hash`/`_img_id`/`lineno` are attached).  The first eight
fields are `Sprite.prototype.defaults`; the four `Option` fields are only
present when set from an option clause (`validate` admits no other keys, so
this structure captures every reachable record).  The source field
`repeat` is called `repeatMode` here (`repeat` is a Lean keyword), and
`limit-repeat-x`/`limit-repeat-y` are `limitRepeatX`/`limitRepeatY`. -/
structure ImgData where
  width : Int
  height : Int
  align : String
  valign : String
  resize : Bool
  repeatMode : String
  limitRepeatY : Int
  limitRepeatX : Int
  filename : String
  totalwidth : Option Int := none
  totalheight : Option Int := none
  padwidth : Option Int := none
  padheight : Option Int := none
deriving DecidableEq, Repr

/-- `Sprite.prototype.getDefaults()` plus the immediately following
`imgdata.filename = filename.val` assignment. -/
def getDefaults (filename : String) : ImgData :=
  { width := 0, height := 0, align := "block", valign := "block",
    resize := false, repeatMode := "no", limitRepeatY := 300,
    limitRepeatX := 0, filename := filename }

/-- The assignment `imgdata[key] = validatedValue`.  The catch-all branch is
unreachable for values produced by `validate` (its schema fixes each key's
value shape). -/
def applyKey (d : ImgData) (key : String) (v : JSVal) : ImgData :=
  if key = "width" then match v with | .num n => { d with width := n } | _ => d
  else if key = "height" then match v with | .num n => { d with height := n } | _ => d
  else if key = "align" then match v with | .str s => { d with align := s } | _ => d
  else if key = "valign" then match v with | .str s => { d with valign := s } | _ => d
  else if key = "resize" then match v with | .bool b => { d with resize := b } | _ => d
  else if key = "repeat" then match v with | .str s => { d with repeatMode := s } | _ => d
  else if key = "limit-repeat-x" then match v with | .num n => { d with limitRepeatX := n } | _ => d
  else if key = "limit-repeat-y" then match v with | .num n => { d with limitRepeatY := n } | _ => d
  else if key = "totalwidth" then match v with | .num n => { d with totalwidth := some n } | _ => d
  else if key = "totalheight" then match v with | .num n => { d with totalheight := some n } | _ => d
  else if key = "padwidth" then match v with | .num n => { d with padwidth := some n } | _ => d
  else if key = "padheight" then match v with | .num n => { d with padheight := some n } | _ => d
  else d

/-- One clause of the option string: split on `":"`, the key is the first
field trimmed and lower-cased, the value the remaining fields re-joined by
`":"` and trimmed (absent when there was no colon).  `none` means the clause
is skipped (falsy key). -/
def clauseKeyVal (opts : String) : Option (String × Option String) :=
  match jsSplit ':' opts with
  | [] => none
  | k :: rest =>
    if k = "" then none
    else
      let key := jsToLower (jsTrim k)
      if key = "" then none
      else some (key, if rest.isEmpty then none else some (jsTrim (joinColon rest)))

/-- The fully-merged attribute record of one reference: defaults overlaid
with the validated option values in clause order (the parse/validate loop of
`spritefunc`).  Fails like the source throws. -/
def mergedOf (filename : String) (options : Option String) : Except String ImgData :=
  (jsSplit ';' (options.getD "")).foldlM
    (fun d opts =>
      match clauseKeyVal opts with
      | none => .ok d
      | some (key, value) => (validate key value).map (applyKey d key))
    (getDefaults filename)

/-! ## The canonical signature (`imgdata.hash`) -/

/-- An optional signature segment: present only when the key was set. -/
def optSeg (lit : List Char) (o : Option Int) : List Char :=
  match o with
  | none => []
  | some n => lit ++ jsIntStr n

/-- JS string coercion of a boolean. -/
def boolStr (b : Bool) : List Char := if b then "true".data else "false".data

/-- The signature segments from `height=` on (every key sorted after
`filename`); their values never contain `';'` or `'='`. -/
def tailOf (d : ImgData) : List Char :=
  ";height=".data ++ jsIntStr d.height
  ++ ";limit-repeat-x=".data ++ jsIntStr d.limitRepeatX
  ++ ";limit-repeat-y=".data ++ jsIntStr d.limitRepeatY
  ++ optSeg ";padheight=".data d.padheight
  ++ optSeg ";padwidth=".data d.padwidth
  ++ ";repeat=".data ++ d.repeatMode.data
  ++ ";resize=".data ++ boolStr d.resize
  ++ optSeg ";totalheight=".data d.totalheight
  ++ optSeg ";totalwidth=".data d.totalwidth
  ++ ";valign=".data ++ d.valign.data
  ++ ";width=".data ++ jsIntStr d.width

/-- The canonical signature: all present keys sorted (JS `Array.sort` on the
key names is alphabetical here: align < filename < height < limit-repeat-x <
limit-repeat-y < padheight < padwidth < repeat < resize < totalheight <
totalwidth < valign < width), each rendered `key=value` and joined with
`";"`.  The bookkeeping fields `hash`/`_img_id`/`lineno` are attached after
the signature is computed and are not part of it. -/
def hashChars (d : ImgData) : List Char :=
  "align=".data ++ d.align.data ++ ";filename=".data ++ d.filename.data ++ tailOf d

/-- The signature as a string. -/
def hashOf (d : ImgData) : String := ⟨hashChars d⟩

/-! ## Registry state and `spritefunc` -/

/-- A registered unique record: `imgdata` with its `hash`, `_img_id` and
`lineno` bookkeeping fields. -/
structure RegEntry where
  data : ImgData
  hash : String
  imgId : Nat
  lineno : Nat
deriving DecidableEq, Repr

/-- A processed record (`processImage` output): the record with `width`/
`height` resolved in place, the natural dimensions, and the computed block
geometry.  `blockWidth` is a JS value: a number or the string `"100%"`. -/
structure ProcEntry where
  data : ImgData
  imgId : Nat
  lineno : Nat
  imageWidth : Int
  imageHeight : Int
  blockWidth : JSVal
  blockHeight : Int
deriving DecidableEq, Repr

/-- The mutable state of a `Sprite` instance. -/
structure SpriteState where
  images : List RegEntry
  processedImages : List ProcEntry
  imgId : Nat
  canvasWidth : Int
  canvasHeight : Int
deriving DecidableEq, Repr

/-- The fields set by the `Sprite` constructor. -/
def initState : SpriteState :=
  { images := [], processedImages := [], imgId := 0, canvasWidth := 0, canvasHeight := 0 }

/-- `this.padding`. -/
def padding : Int := 10

/-- The placeholder token `placeholder + "(" + id + ")"` returned by
`spritefunc` (and matched, wrapped in single quotes, by `makeMap`). -/
def tokenOf (placeholder : String) (id : Nat) : String :=
  placeholder ++ "(" ++ ⟨jsNatStr id⟩ ++ ")"

/-- `Sprite.prototype.spritefunc(filename, options)`: merge and validate the
options, compute the signature, and either return the cached record's id
(the source's `filter` keeps reassigning `imgdata`, so the *last* match
wins) or assign a fresh id and append the record.  Returns the placeholder
id; the string embedded into the stylesheet is `tokenOf placeholder id`. -/
def spritefunc (st : SpriteState) (filename : String) (lineno : Nat)
    (options : Option String) : Except String (Nat × SpriteState) :=
  match mergedOf filename options with
  | .error e => .error e
  | .ok imgdata =>
    let h := hashOf imgdata
    match (st.images.filter (fun elm => elm.hash == h)).getLast? with
    | some elm => .ok (elm.imgId, st)
    | none =>
      let id := st.imgId + 1
      .ok (id,
        { st with
          imgId := id
          images := st.images ++ [⟨imgdata, h, id, lineno⟩] })

/-- One reference as the host compiler hands it over: a filename token with
its source line number, and the optional raw option string. -/
structure RegInput where
  filename : String
  lineno : Nat
  options : Option String
deriving DecidableEq, Repr

/-- A sequence of `spritefunc` calls on one instance, collecting the
returned placeholder ids. -/
def runRegs : SpriteState → List RegInput → Except String (List Nat × SpriteState)
  | st, [] => .ok ([], st)
  | st, r :: rest =>
    match spritefunc st r.filename r.lineno r.options with
    | .error e => .error e
    | .ok (id, st') =>
      match runRegs st' rest with
      | .error e => .error e
      | .ok (ids, st'') => .ok (id :: ids, st'')

deriving instance DecidableEq for Except

/-! ## The image resolution pass (`processImage` / `build`) -/

/-- Constructor-level options the model needs (`image_root` and the
placeholder prefix; output file handling only selects the save codec). -/
structure SpriteConfig where
  image_root : String := ""
  placeholder : String := "SPRITE_PLACEHOLDER"

/-- The image-I/O collaborator: decoding a path yields the natural pixel
`(width, height)` or a decode error. -/
def Decoder := String → Except String (Int × Int)

/-- `pathlib.join` for the configurations exercised here (an empty root
joins to the bare filename). -/
def jsPathJoin (root f : String) : String :=
  if root = "" then f else root ++ "/" ++ f

/-- The `blockWidth` computation, transcribed with JS truthiness:
`(repeat=="x" && limitRepeatX || "100%") || (align!="block" && "100%") || width`. -/
def blockWidthExpr (d : ImgData) : JSVal :=
  jsOr (jsOr (jsAnd (.bool (d.repeatMode == "x")) (.num d.limitRepeatX)) (.str "100%"))
    (jsOr (jsAnd (.bool (d.align != "block")) (.str "100%")) (.num d.width))

/-- The `blockHeight` computation: `(repeat=="y" && limitRepeatY) || height`. -/
def blockHeightExpr (d : ImgData) : JSVal :=
  jsOr (jsAnd (.bool (d.repeatMode == "y")) (.num d.limitRepeatY)) (.num d.height)

/-- The geometry part of `processImage` once the image is decoded: record the
natural size, default `width`/`height` to it when they are 0 (falsy), and
compute the block size (clamping `blockHeight` to at least `height`).
Returns the updated record, `blockWidth` and `blockHeight`. -/
def resolveSpec (d : ImgData) (imgW imgH : Int) : ImgData × JSVal × Int :=
  let d' := { d with
    width := if d.width == 0 then imgW else d.width
    height := if d.height == 0 then imgH else d.height }
  let bw := blockWidthExpr d'
  let bhRaw := match blockHeightExpr d' with | .num n => n | _ => 0
  let bh := if bhRaw < d'.height then d'.height else bhRaw
  (d', bw, bh)

/-- `Sprite.prototype.processImage` (with `openImage` inlined as in the
source's flow): the outer `.error` is the synchronous `throw` on an unknown
file extension; the inner `.error` is the decode failure handed to the
callback, annotated with the source line number.  On success the canvas
accumulators are updated and the record moves to `processedImages`. -/
def processImage (decode : Decoder) (cfg : SpriteConfig) (st : SpriteState)
    (e : RegEntry) : Except String (Except String SpriteState) :=
  let path := jsPathJoin cfg.image_root e.data.filename
  let ext := jsToLower (((jsSplit '.' path).getLast?).getD "")
  if ext = "png" ∨ ext = "gif" ∨ ext = "jpg" ∨ ext = "jpeg" then
    match decode path with
    | .error err => .ok (.error (err ++ "; CSS line nr #" ++ (⟨jsNatStr e.lineno⟩ : String)))
    | .ok (w, h) =>
      let rs := resolveSpec e.data w h
      let cw1 := match rs.2.1 with
        | .num n => if n > st.canvasWidth then n else st.canvasWidth
        | _ => st.canvasWidth
      let cw2 := if rs.1.width > cw1 then rs.1.width else cw1
      .ok (.ok { st with
        canvasWidth := cw2
        canvasHeight := st.canvasHeight + (rs.2.2 + padding)
        processedImages := st.processedImages ++
          [⟨rs.1, e.imgId, e.lineno, w, h, rs.2.1, rs.2.2⟩] })
  else
    .error "Unknown file type"

/-! ## The drawing pass (`makeMap`) -/

/-- The `repeat:x` tiling loop: starting from `curX`, copy a tile of width
`remainder = if curX + w < blockWidth then w else blockWidth - curX` and
advance `curX += w` while `curX < blockWidth`.  Returns the `(curX,
remainder)` pairs; `none` when the fuel runs out, which models the loop
not terminating (possible only when `w ≤ 0`). -/
def tilesXAux (fuel : Nat) (blockWidth w curX : Int) : Option (List (Int × Int)) :=
  match fuel with
  | 0 => if curX < blockWidth then none else some []
  | fuel + 1 =>
    if curX < blockWidth then
      let remainder := if curX + w < blockWidth then w else blockWidth - curX
      (tilesXAux fuel blockWidth w (curX + w)).map (fun ts => (curX, remainder) :: ts)
    else some []

/-- The `repeat:x` tiling loop from `curX = 0`. -/
def tilingX (blockWidth w : Int) : Option (List (Int × Int)) :=
  tilesXAux (blockWidth.toNat + 1) blockWidth w 0

/-- The `repeat:y` tiling loop: copy a tile of height `remainder` and
advance `curY += remainder` while `curY < endY`.  Returns the `(curY,
remainder)` pairs together with the final `curY`. -/
def tilesYAux (fuel : Nat) (endY h curY : Int) : Option (List (Int × Int) × Int) :=
  match fuel with
  | 0 => if curY < endY then none else some ([], curY)
  | fuel + 1 =>
    if curY < endY then
      let remainder := if curY + h < endY then h else endY - curY
      (tilesYAux fuel endY h (curY + remainder)).map
        (fun r => ((curY, remainder) :: r.1, r.2))
    else some ([], curY)

/-- The `repeat:y` tiling loop from `curY = startY` up to `startY + blockHeight`. -/
def tilingY (startY blockHeight h : Int) : Option (List (Int × Int) × Int) :=
  tilesYAux (blockHeight.toNat + 1) (startY + blockHeight) h startY

/-- Global literal replacement (the semantics of `css.replace(re, repl)`
with the escaped-literal global regex the source builds): scan left to
right, replace each non-overlapping occurrence of `pat`, resume after the
inserted replacement.  Fuel-driven; `fuel ≥ s.length` never runs out. -/
def replaceAllAux (fuel : Nat) (s pat repl : List Char) : List Char :=
  match fuel, s with
  | 0, s => s
  | _ + 1, [] => []
  | fuel + 1, c :: rest =>
    if pat ≠ [] ∧ pat.isPrefixOf (c :: rest) then
      repl ++ replaceAllAux fuel ((c :: rest).drop pat.length) pat repl
    else
      c :: replaceAllAux fuel rest pat repl

/-- Global literal replacement on strings. -/
def sReplaceAll (s pat repl : String) : String :=
  ⟨replaceAllAux s.data.length s.data pat.data repl.data⟩

/-- Decimal string of an integer. -/
def istr (i : Int) : String := ⟨jsIntStr i⟩

/-- A copy onto the sprite canvas: destination `(x, y)` and copied `(w, h)`. -/
abbrev DrawOp := Int × Int × Int × Int

/-- The CSS replacement value for one block: `"-<startX>px -<startY>px"`,
with the X component overridden to `100%`/`center` for `align:right`/
`align:center`, plus the optional margin/width/height block when both
`totalwidth` and `totalheight` are set (and truthy). -/
def cssReplacementFor (p : ProcEntry) (startX startY : Int) : String :=
  let cssPlacementX :=
    if p.data.align = "right" then "100%"
    else if p.data.align = "center" then "center"
    else "-" ++ istr startX ++ "px"
  let cssPlacementY := "-" ++ istr startY ++ "px"
  let appendMargin :=
    match p.data.totalwidth, p.data.totalheight with
    | some tw, some th =>
      if tw ≠ 0 ∧ th ≠ 0 then
        let margw := tw - p.imageWidth
        let margh := th - p.imageHeight
        let margtop := Int.fdiv (margh + 1) 2
        let margright := Int.fdiv margw 2
        let margbottom := Int.fdiv margh 2
        let margleft := Int.fdiv (margw + 1) 2
        let imgw := p.imageWidth +
          (match p.data.padwidth with | some pw => pw | none => 0)
        let imgh := p.imageHeight +
          (match p.data.padheight with | some ph => ph | none => 0)
        ";margin:" ++ istr margtop ++ "px " ++ istr margright ++ "px " ++
          istr margbottom ++ "px " ++ istr margleft ++ "px !important;" ++
          "height:" ++ istr imgh ++ "px !important;" ++
          "width:" ++ istr imgw ++ "px !important"
      else ""
    | _, _ => ""
  cssPlacementX ++ " " ++ cssPlacementY ++ appendMargin

/-- One iteration of the `makeMap` loop: resolve the symbolic block width,
compute the block's horizontal placement from `align`, draw according to
the repeat mode, and substitute this record's quoted placeholder token.
Returns the new `curY`, the replacement string, the new css and the draw
ops; `none` when a tiling loop diverges. -/
def makeMapStep (cfg : SpriteConfig) (cw : Int) (p : ProcEntry) (curY : Int)
    (css : String) : Option (Int × String × String × List DrawOp) :=
  let bw : Int := match p.blockWidth with
    | .str s => if s = "100%" then cw else 0
    | .num n => n
    | .bool _ => 0
  let width := p.data.width
  let height := p.data.height
  let curX : Int :=
    match p.data.align with
    | "center" => Int.fdiv (cw - width + 1) 2
    | "right" => cw - width
    | "left" => 0
    | _ => 0
  let startY := curY
  let step : Option (Int × Int × List DrawOp) :=
    if p.data.repeatMode = "no" then
      some (curX, curY + height + padding, [(curX, curY, width, height)])
    else if p.data.repeatMode = "x" then
      (tilingX bw width).map (fun ts =>
        (0, curY + height + padding, ts.map (fun t => (t.1, curY, t.2, height))))
    else if p.data.repeatMode = "y" then
      (tilingY startY p.blockHeight height).map (fun r =>
        (curX, r.2 + padding, r.1.map (fun t => (curX, t.1, width, t.2))))
    else
      some (curX, curY, [])
  step.map (fun r =>
    let startX := r.1
    let repl := cssReplacementFor p startX startY
    let pat := "'" ++ tokenOf cfg.placeholder p.imgId ++ "'"
    (r.2.1, repl, sReplaceAll css pat repl, r.2.2))

/-- The `makeMap` loop over the processed records, from `curY = 0`:
returns the substituted css, the per-record replacement strings, and the
draw ops. -/
def makeMapAux (cfg : SpriteConfig) (cw : Int) :
    List ProcEntry → Int → String → Option (String × List (Nat × String) × List DrawOp)
  | [], _, css => some (css, [], [])
  | p :: rest, curY, css =>
    match makeMapStep cfg cw p curY css with
    | none => none
    | some (curY', repl, css', ops) =>
      (makeMapAux cfg cw rest curY' css').map
        (fun r => (r.1, (p.imgId, repl) :: r.2.1, ops ++ r.2.2))

/-- `Sprite.prototype.makeMap`: the synchronous drawing/substitution pass. -/
def makeMap (cfg : SpriteConfig) (st : SpriteState) (css : String) :
    Option (String × List (Nat × String) × List DrawOp) :=
  makeMapAux cfg st.canvasWidth st.processedImages 0 css

/-! ## The build queue (`build`) -/

/-- One invocation of the caller's completion callback. -/
inductive CbCall where
  | err (msg : String)
  | ok (css : String)
deriving DecidableEq, Repr

/-- The observable outcome of a completed build: the callback invocations in
order, whether the sprite file was written, the per-record replacement
strings, the canvas draw ops, and the final state. -/
structure BuildResult where
  calls : List CbCall
  fileWritten : Bool
  replacements : List (Nat × String)
  drawOps : List DrawOp
  final : SpriteState
deriving DecidableEq, Repr

/-- A finished run of `build`: either the control flow completed, or a
synchronous exception escaped. -/
inductive BuildOutcome where
  | completed (r : BuildResult)
  | thrown (msg : String)
deriving DecidableEq, Repr

/-- `Sprite.prototype.build(css, callback, err)`: first invoke the callback
when an error argument is present (the source does *not* return here), then
shift and process the next pending record, or run `makeMap` when none are
left.  `none` models a diverging drawing loop. -/
def buildAux (decode : Decoder) (cfg : SpriteConfig) (css : String) :
    List RegEntry → SpriteState → Option String → List CbCall → Option BuildOutcome
  | pending, st, errArg, calls =>
    let calls := match errArg with
      | some e => calls ++ [CbCall.err e]
      | none => calls
    match pending with
    | e :: rest =>
      let st' := { st with images := rest }
      match processImage decode cfg st' e with
      | .error msg => some (.thrown msg)
      | .ok (.error err) => buildAux decode cfg css rest st' (some err) calls
      | .ok (.ok st'') => buildAux decode cfg css rest st'' none calls
    | [] =>
      (makeMap cfg st css).map (fun r =>
        .completed { calls := calls ++ [CbCall.ok r.1], fileWritten := true,
                     replacements := r.2.1, drawOps := r.2.2, final := st })

/-- The caller's `sprite.build(css, callback)` entry point. -/
def build (decode : Decoder) (cfg : SpriteConfig) (st : SpriteState)
    (css : String) : Option BuildOutcome :=
  buildAux decode cfg css st.images st none []

/-! ## Validity and registry invariants -/

/-- The enumerated fields of a reachable record always hold validated (or
default) values. -/
def ValidData (d : ImgData) : Prop :=
  d.align ∈ ["block", "left", "center", "right"] ∧
  d.valign ∈ ["block", "bottom", "middle", "top"] ∧
  d.repeatMode ∈ ["no", "x", "y"]

/-- The registry invariant: every stored entry carries the signature of its
own record, a validated record, and an id in `1..imgId`; distinct entries
have distinct ids and distinct signatures. -/
def RegInv (st : SpriteState) : Prop :=
  (∀ e ∈ st.images, e.hash = hashOf e.data ∧ ValidData e.data ∧
    1 ≤ e.imgId ∧ e.imgId ≤ st.imgId) ∧
  st.images.Pairwise (fun a b => a.imgId ≠ b.imgId ∧ a.hash ≠ b.hash)

/-- The reversal of a rendered integer (used to cancel signature segments
from the right). -/
def numRev (i : Int) : List Char := (jsIntStr i).reverse

/-- Reversed optional signature segment. -/
def optSegRev (lit : List Char) (o : Option Int) : List Char :=
  match o with
  | none => []
  | some n => numRev n ++ lit

/-! ## Quoted-token documents (the shape of host-compiled stylesheet text) -/

/-- The default placeholder prefix, as characters. -/
def Pv : List Char := "SPRITE_PLACEHOLDER".data

/-- `isPchar c` iff `c` occurs in the default placeholder prefix. -/
def isPchar (c : Char) : Bool := c ∈ Pv

/-- The characters of the bare token `SPRITE_PLACEHOLDER(<n>)`. -/
def tokChars (n : Nat) : List Char := Pv ++ '(' :: (jsNatStr n ++ [')'])

/-- The characters of the single-quoted token `'SPRITE_PLACEHOLDER(<n>)'`
(the literal the substitution regex matches). -/
def qtokChars (n : Nat) : List Char := '\'' :: (tokChars n ++ ['\''])

/-- A non-token chunk interleaved in a document: either a quoted placeholder
token or a replacement string inserted by an earlier substitution. -/
inductive SpTok where
  | q (n : Nat)
  | r (s : List Char)
deriving DecidableEq, Repr

/-- Stylesheet text decomposed as plain chunks alternating with tokens. -/
inductive SpDoc where
  | last (z : List Char)
  | piece (z : List Char) (t : SpTok) (rest : SpDoc)
deriving DecidableEq, Repr

/-- Characters of one interleaved chunk. -/
def renderTok : SpTok → List Char
  | .q n => qtokChars n
  | .r s => s

/-- The rendered document text. -/
def render : SpDoc → List Char
  | .last z => z
  | .piece z t rest => z ++ renderTok t ++ render rest

/-- A plain chunk never contains the placeholder prefix. -/
def PlainOK (z : List Char) : Prop := ¬ Pv <:+: z

/-- A replacement chunk is non-empty and contains no placeholder-prefix
character and no single quote (true of every css value `makeMap` builds). -/
def TokOK : SpTok → Prop
  | .q _ => True
  | .r s => s ≠ [] ∧ ∀ c ∈ s, isPchar c = false ∧ c ≠ '\''

/-- Well-formed document: all plain chunks and replacement chunks are benign. -/
def WfDoc : SpDoc → Prop
  | .last z => PlainOK z
  | .piece z t rest => PlainOK z ∧ TokOK t ∧ WfDoc rest

/-- Replace every quoted token with id `i` by the replacement chunk `repl`. -/
def substDoc (i : Nat) (repl : List Char) : SpDoc → SpDoc
  | .last z => .last z
  | .piece z t rest =>
    .piece z (match t with
      | .q n => if n = i then .r repl else .q n
      | .r s => .r s) (substDoc i repl rest)

/-- The ids of the quoted tokens still present in a document. -/
def docQIds : SpDoc → List Nat
  | .last _ => []
  | .piece _ t rest =>
    (match t with | .q n => [n] | .r _ => []) ++ docQIds rest

/-- A registered record whose image file `processImage` can open and decode:
a known extension and a successful decode. -/
def DecodeOK (decode : Decoder) (cfg : SpriteConfig) (e : RegEntry) : Prop :=
  (let ext := jsToLower (((jsSplit '.' (jsPathJoin cfg.image_root e.data.filename)).getLast?).getD "")
   ext = "png" ∨ ext = "gif" ∨ ext = "jpg" ∨ ext = "jpeg") ∧
  ∃ w h, decode (jsPathJoin cfg.image_root e.data.filename) = .ok (w, h)

/-! # Theorems -/

/-! ## Shape of one successful `processImage` step -/

theorem processImage_ok_shape {decode : Decoder} {cfg : SpriteConfig} {st : SpriteState}
    {e : RegEntry} {st' : SpriteState}
    (h : processImage decode cfg st e = .ok (.ok st')) :
    ∃ p : ProcEntry,
      st'.images = st.images ∧
      st'.imgId = st.imgId ∧
      st'.processedImages = st.processedImages ++ [p] ∧
      st'.canvasHeight = st.canvasHeight + (p.blockHeight + padding) ∧
      st.canvasWidth ≤ st'.canvasWidth ∧
      p.data.width ≤ st'.canvasWidth ∧
      p.imgId = e.imgId := by
  unfold processImage at h
  dsimp only at h
  split at h
  case isFalse => exact absurd h (by simp)
  case isTrue hext =>
    cases hdec : decode (jsPathJoin cfg.image_root e.data.filename) with
    | error err => rw [hdec] at h; exact absurd h (by simp)
    | ok wh =>
      obtain ⟨w, hgt⟩ := wh
      rw [hdec] at h
      simp only [Except.ok.injEq] at h
      subst h
      refine ⟨⟨(resolveSpec e.data w hgt).1, e.imgId, e.lineno, w, hgt,
        (resolveSpec e.data w hgt).2.1, (resolveSpec e.data w hgt).2.2⟩,
        rfl, rfl, rfl, rfl, ?_, ?_, rfl⟩ <;>
      · dsimp only
        rcases (resolveSpec e.data w hgt).2.1 with n | s | b <;> dsimp only <;>
          split_ifs <;> omega


/-! ## Invariants of the build queue -/

theorem buildAux_invariants {decode : Decoder} {cfg : SpriteConfig} {css : String}
    (pending : List RegEntry) :
    ∀ (st : SpriteState) (errArg : Option String) (calls : List CbCall)
      (r : BuildResult),
      pending = st.images →
      buildAux decode cfg css pending st errArg calls = some (.completed r) →
      r.final.images = [] ∧
      r.final.imgId = st.imgId ∧
      st.canvasWidth ≤ r.final.canvasWidth ∧
      (∀ p ∈ st.processedImages, p ∈ r.final.processedImages) ∧
      ((∀ p ∈ st.processedImages, p.data.width ≤ st.canvasWidth) →
        ∀ p ∈ r.final.processedImages, p.data.width ≤ r.final.canvasWidth) ∧
      (st.canvasHeight = ((st.processedImages.map (fun p => p.blockHeight + padding)).sum) →
        r.final.canvasHeight =
          ((r.final.processedImages.map (fun p => p.blockHeight + padding)).sum)) := by
  induction pending with
  | nil =>
    intro st errArg calls r hpend h
    simp only [buildAux] at h
    cases hm : makeMap cfg st css with
    | none => rw [hm] at h; exact absurd h (by simp)
    | some v =>
      rw [hm] at h
      simp only [Option.map_some', Option.some.injEq, BuildOutcome.completed.injEq] at h
      have hr : r.final = st := by rw [← h]
      rw [hr]
      exact ⟨hpend.symm, rfl, le_refl _, fun p hp => hp, fun hw => hw, fun hh => hh⟩
  | cons e rest ih =>
    intro st errArg calls r hpend h
    simp only [buildAux] at h
    cases hp : processImage decode cfg { st with images := rest } e with
    | error msg => rw [hp] at h; exact absurd h (by simp)
    | ok inner =>
      cases inner with
      | error err =>
        rw [hp] at h
        obtain ⟨h1, h2, h3, h4, h5, h6⟩ := ih { st with images := rest } (some err) _ r rfl h
        exact ⟨h1, h2, h3, h4, h5, h6⟩
      | ok st'' =>
        rw [hp] at h
        obtain ⟨p, hsi, hsid, hspr, hsch, hscw, hpw, hpid⟩ := processImage_ok_shape hp
        obtain ⟨h1, h2, h3, h4, h5, h6⟩ := ih st'' none _ r hsi.symm h
        refine ⟨h1, h2.trans hsid, le_trans hscw h3, ?_, ?_, ?_⟩
        · intro q hq
          exact h4 q (by rw [hspr]; exact List.mem_append_left _ hq)
        · intro hw q hq
          refine h5 ?_ q hq
          intro q' hq'
          rw [hspr] at hq'
          rcases List.mem_append.mp hq' with hq'' | hq''
          · exact le_trans (hw q' hq'') hscw
          · rcases List.mem_singleton.mp hq'' with rfl
            exact hpw
        · intro hh
          refine h6 ?_
          rw [hsch, hspr, hh]
          simp

/-! ## Validity of merged records -/

theorem applyKey_valid {d : ImgData} {key : String} {value : Option String}
    {v : JSVal} (hd : ValidData d) (hv : validate key value = .ok v) :
    ValidData (applyKey d key v) := by
  unfold applyKey
  by_cases hw : key = "width"
  · rw [if_pos hw]
    cases v <;> exact ⟨hd.1, hd.2.1, hd.2.2⟩
  rw [if_neg hw]
  by_cases hh : key = "height"
  · rw [if_pos hh]
    cases v <;> exact ⟨hd.1, hd.2.1, hd.2.2⟩
  rw [if_neg hh]
  by_cases ha : key = "align"
  · rw [if_pos ha]
    cases v with
    | str s =>
      subst ha
      refine ⟨?_, hd.2.1, hd.2.2⟩
      unfold validate at hv
      rw [show keys "align" = some (.predefined ["block", "left", "center", "right"]) from rfl] at hv
      cases value with
      | none => exact absurd hv (by simp)
      | some s' =>
        dsimp only at hv
        split at hv
        · simp only [Except.ok.injEq, JSVal.str.injEq] at hv
          rw [← hv]; assumption
        · exact absurd hv (by simp)
    | num n => exact ⟨hd.1, hd.2.1, hd.2.2⟩
    | bool b => exact ⟨hd.1, hd.2.1, hd.2.2⟩
  rw [if_neg ha]
  by_cases hva : key = "valign"
  · rw [if_pos hva]
    cases v with
    | str s =>
      subst hva
      refine ⟨hd.1, ?_, hd.2.2⟩
      unfold validate at hv
      rw [show keys "valign" = some (.predefined ["block", "bottom", "middle", "top"]) from rfl] at hv
      cases value with
      | none => exact absurd hv (by simp)
      | some s' =>
        dsimp only at hv
        split at hv
        · simp only [Except.ok.injEq, JSVal.str.injEq] at hv
          rw [← hv]; assumption
        · exact absurd hv (by simp)
    | num n => exact ⟨hd.1, hd.2.1, hd.2.2⟩
    | bool b => exact ⟨hd.1, hd.2.1, hd.2.2⟩
  rw [if_neg hva]
  by_cases hrs : key = "resize"
  · rw [if_pos hrs]
    cases v <;> exact ⟨hd.1, hd.2.1, hd.2.2⟩
  rw [if_neg hrs]
  by_cases hrp : key = "repeat"
  · rw [if_pos hrp]
    cases v with
    | str s =>
      subst hrp
      refine ⟨hd.1, hd.2.1, ?_⟩
      unfold validate at hv
      rw [show keys "repeat" = some (.predefined ["no", "x", "y"]) from rfl] at hv
      cases value with
      | none => exact absurd hv (by simp)
      | some s' =>
        dsimp only at hv
        split at hv
        · simp only [Except.ok.injEq, JSVal.str.injEq] at hv
          rw [← hv]; assumption
        · exact absurd hv (by simp)
    | num n => exact ⟨hd.1, hd.2.1, hd.2.2⟩
    | bool b => exact ⟨hd.1, hd.2.1, hd.2.2⟩
  rw [if_neg hrp]
  by_cases hlx : key = "limit-repeat-x"
  · rw [if_pos hlx]
    cases v <;> exact ⟨hd.1, hd.2.1, hd.2.2⟩
  rw [if_neg hlx]
  by_cases hly : key = "limit-repeat-y"
  · rw [if_pos hly]
    cases v <;> exact ⟨hd.1, hd.2.1, hd.2.2⟩
  rw [if_neg hly]
  by_cases htw : key = "totalwidth"
  · rw [if_pos htw]
    cases v <;> exact ⟨hd.1, hd.2.1, hd.2.2⟩
  rw [if_neg htw]
  by_cases hth : key = "totalheight"
  · rw [if_pos hth]
    cases v <;> exact ⟨hd.1, hd.2.1, hd.2.2⟩
  rw [if_neg hth]
  by_cases hpw : key = "padwidth"
  · rw [if_pos hpw]
    cases v <;> exact ⟨hd.1, hd.2.1, hd.2.2⟩
  rw [if_neg hpw]
  by_cases hph : key = "padheight"
  · rw [if_pos hph]
    cases v <;> exact ⟨hd.1, hd.2.1, hd.2.2⟩
  rw [if_neg hph]
  exact ⟨hd.1, hd.2.1, hd.2.2⟩

theorem mergedOf_valid {f : String} {o : Option String} {d : ImgData}
    (h : mergedOf f o = .ok d) : ValidData d := by
  unfold mergedOf at h
  have main : ∀ (l : List String) (d0 : ImgData), ValidData d0 →
      (l.foldlM (fun d opts =>
        match clauseKeyVal opts with
        | none => Except.ok d
        | some (key, value) => (validate key value).map (applyKey d key)) d0)
        = .ok d → ValidData d := by
    intro l
    induction l with
    | nil =>
      intro d0 h0 hh
      simp only [List.foldlM_nil] at hh
      cases hh
      exact h0
    | cons c cs ih =>
      intro d0 h0 hh
      rw [List.foldlM_cons] at hh
      cases hc : clauseKeyVal c with
      | none =>
        rw [hc] at hh
        dsimp only [bind, Except.bind] at hh
        exact ih d0 h0 hh
      | some kv =>
        obtain ⟨key, value⟩ := kv
        rw [hc] at hh
        dsimp only at hh
        cases hval : validate key value with
        | error e =>
          rw [hval] at hh
          dsimp only [Except.map, bind, Except.bind] at hh
          exact absurd hh (by simp)
        | ok v =>
          rw [hval] at hh
          dsimp only [Except.map, bind, Except.bind] at hh
          exact ih _ (applyKey_valid h0 hval) hh
  exact main _ _ (by simp [ValidData, getDefaults]) h

/-! ## Registry invariants under `spritefunc` -/

theorem spritefunc_inv {st : SpriteState} {f : String} {l : Nat}
    {o : Option String} {id : Nat} {st' : SpriteState} (hinv : RegInv st)
    (h : spritefunc st f l o = .ok (id, st')) :
    RegInv st' ∧ st.imgId ≤ st'.imgId ∧ 1 ≤ id ∧ id ≤ st'.imgId ∧
    st'.processedImages = st.processedImages ∧
    st'.canvasWidth = st.canvasWidth ∧ st'.canvasHeight = st.canvasHeight ∧
    (∀ e ∈ st.images, e ∈ st'.images) ∧
    ∃ d, mergedOf f o = .ok d ∧ ValidData d ∧
      ∃ e ∈ st'.images, e.imgId = id ∧ e.hash = hashOf d := by
  unfold spritefunc at h
  cases hm : mergedOf f o with
  | error e => rw [hm] at h; exact absurd h (by simp)
  | ok d =>
    rw [hm] at h
    dsimp only at h
    cases hc : (st.images.filter (fun elm => elm.hash == hashOf d)).getLast? with
    | some elm =>
      rw [hc] at h
      simp only [Except.ok.injEq, Prod.mk.injEq] at h
      obtain ⟨rfl, rfl⟩ := h
      have helm : elm ∈ st.images ∧ (elm.hash == hashOf d) = true :=
        List.mem_filter.mp (List.mem_of_getLast?_eq_some hc)
      obtain ⟨he1, he2, he3, he4⟩ := hinv.1 elm helm.1
      exact ⟨hinv, le_refl _, he3, he4, rfl, rfl, rfl, fun e he => he,
        d, rfl, mergedOf_valid hm, elm, helm.1, rfl, by simpa using helm.2⟩
    | none =>
      rw [hc] at h
      simp only [Except.ok.injEq, Prod.mk.injEq] at h
      obtain ⟨rfl, rfl⟩ := h
      have hfresh : ∀ e ∈ st.images, e.hash ≠ hashOf d := by
        intro e he heq
        have : e ∈ st.images.filter (fun elm => elm.hash == hashOf d) :=
          List.mem_filter.mpr ⟨he, by simpa using heq⟩
        rcases List.getLast?_eq_none_iff.mp hc with hnil
        rw [hnil] at this
        exact absurd this (List.not_mem_nil e)
      refine ⟨⟨?_, ?_⟩, Nat.le_succ _, Nat.succ_le_succ (Nat.zero_le _), le_refl _,
        rfl, rfl, rfl, fun e he => List.mem_append_left _ he,
        d, rfl, mergedOf_valid hm,
        ⟨d, hashOf d, st.imgId + 1, l⟩, List.mem_append_right _ (by simp), rfl, rfl⟩
      · intro e he
        rcases List.mem_append.mp he with he' | he'
        · obtain ⟨h1, h2, h3, h4⟩ := hinv.1 e he'
          exact ⟨h1, h2, h3, Nat.le_succ_of_le h4⟩
        · rcases List.mem_singleton.mp he' with rfl
          exact ⟨rfl, mergedOf_valid hm, Nat.succ_le_succ (Nat.zero_le _), le_refl _⟩
      · rw [List.pairwise_append]
        refine ⟨hinv.2, List.pairwise_singleton _ _, ?_⟩
        intro a ha b hb
        rcases List.mem_singleton.mp hb with rfl
        obtain ⟨h1, h2, h3, h4⟩ := hinv.1 a ha
        exact ⟨by dsimp only; omega, fun hh => hfresh a ha (by rw [hh])⟩

theorem runRegs_inv (regs : List RegInput) :
    ∀ (st0 : SpriteState) (ids : List Nat) (st : SpriteState), RegInv st0 →
      runRegs st0 regs = .ok (ids, st) →
      RegInv st ∧ st0.imgId ≤ st.imgId ∧
      st.processedImages = st0.processedImages ∧
      st.canvasWidth = st0.canvasWidth ∧ st.canvasHeight = st0.canvasHeight ∧
      (∀ e ∈ st0.images, e ∈ st.images) ∧
      ids.length = regs.length ∧
      (∀ i ∈ ids, 1 ≤ i ∧ i ≤ st.imgId) ∧
      ∀ k (hk : k < regs.length) (hk' : k < ids.length),
        ∃ d, mergedOf (regs.get ⟨k, hk⟩).filename (regs.get ⟨k, hk⟩).options = .ok d ∧
          ValidData d ∧
          ∃ e ∈ st.images, e.imgId = ids.get ⟨k, hk'⟩ ∧ e.hash = hashOf d := by
  induction regs with
  | nil =>
    intro st0 ids st hinv h
    simp only [runRegs] at h
    cases h
    exact ⟨hinv, le_refl _, rfl, rfl, rfl, fun e he => he, rfl,
      fun i hi => absurd hi (List.not_mem_nil i), fun k hk => absurd hk (by simp)⟩
  | cons rg rest ih =>
    intro st0 ids st hinv h
    simp only [runRegs] at h
    cases hs : spritefunc st0 rg.filename rg.lineno rg.options with
    | error e => rw [hs] at h; exact absurd h (by simp)
    | ok pair =>
      obtain ⟨id, st1⟩ := pair
      rw [hs] at h
      dsimp only at h
      cases hr : runRegs st1 rest with
      | error e => rw [hr] at h; exact absurd h (by simp)
      | ok pr =>
        obtain ⟨ids', st''⟩ := pr
        rw [hr] at h
        simp only [Except.ok.injEq, Prod.mk.injEq] at h
        obtain ⟨rfl, rfl⟩ := h
        obtain ⟨hinv1, hle1, h1id, hidle, hpr1, hcw1, hch1, hmem1, d, hd, hdv, e0, he0, he0id, he0hash⟩ :=
          spritefunc_inv hinv hs
        obtain ⟨hinv2, hle2, hpr2, hcw2, hch2, hmem2, hlen2, hbound2, hk2⟩ :=
          ih st1 ids' st'' hinv1 hr
        refine ⟨hinv2, le_trans hle1 hle2, hpr2.trans hpr1, hcw2.trans hcw1,
          hch2.trans hch1, fun e he => hmem2 e (hmem1 e he), by simpa using hlen2, ?_, ?_⟩
        · intro i hi
          rcases List.mem_cons.mp hi with rfl | hi'
          · exact ⟨h1id, le_trans hidle hle2⟩
          · exact hbound2 i hi'
        · intro k hk hk'
          cases k with
          | zero =>
            exact ⟨d, hd, hdv, e0, hmem2 e0 he0, he0id, he0hash⟩
          | succ k' =>
            have hk'' : k' < rest.length := by simpa using hk
            have hk''' : k' < ids'.length := by simpa using hk'
            obtain ⟨d', hd', hdv', e', he', heid', hehash'⟩ := hk2 k' hk'' hk'''
            exact ⟨d', hd', hdv', e', he', heid', hehash'⟩

theorem processImage_ok_of_decodeOK {decode : Decoder} {cfg : SpriteConfig}
    {st : SpriteState} {e : RegEntry} (h : DecodeOK decode cfg e) :
    ∃ st'', processImage decode cfg st e = .ok (.ok st'') := by
  obtain ⟨hext, w, hgt, hdec⟩ := h
  have hext' : jsToLower (((jsSplit '.'
      (jsPathJoin cfg.image_root e.data.filename)).getLast?).getD "") = "png" ∨
      jsToLower (((jsSplit '.'
        (jsPathJoin cfg.image_root e.data.filename)).getLast?).getD "") = "gif" ∨
      jsToLower (((jsSplit '.'
        (jsPathJoin cfg.image_root e.data.filename)).getLast?).getD "") = "jpg" ∨
      jsToLower (((jsSplit '.'
        (jsPathJoin cfg.image_root e.data.filename)).getLast?).getD "") = "jpeg" := hext
  unfold processImage
  dsimp only
  rw [if_pos hext', hdec]
  exact ⟨_, rfl⟩

theorem buildAux_all_processed {decode : Decoder} {cfg : SpriteConfig} {css : String}
    (pending : List RegEntry) :
    ∀ (st : SpriteState) (errArg : Option String) (calls : List CbCall)
      (r : BuildResult),
      pending = st.images →
      (∀ e ∈ pending, DecodeOK decode cfg e) →
      buildAux decode cfg css pending st errArg calls = some (.completed r) →
      r.final.processedImages.map (fun p => p.imgId) =
        st.processedImages.map (fun p => p.imgId) ++ pending.map (fun e => e.imgId) := by
  induction pending with
  | nil =>
    intro st errArg calls r hpend hok h
    simp only [buildAux] at h
    cases hm : makeMap cfg st css with
    | none => rw [hm] at h; exact absurd h (by simp)
    | some v =>
      rw [hm] at h
      simp only [Option.map_some', Option.some.injEq, BuildOutcome.completed.injEq] at h
      have hr : r.final = st := by rw [← h]
      rw [hr]
      simp
  | cons e rest ih =>
    intro st errArg calls r hpend hok h
    simp only [buildAux] at h
    obtain ⟨st'', hp⟩ := @processImage_ok_of_decodeOK decode cfg
      { st with images := rest } e (hok e (List.mem_cons_self e rest))
    rw [hp] at h
    obtain ⟨p, hsi, -, hspr, -, -, -, hpid⟩ := processImage_ok_shape hp
    have hrec := ih st'' none _ r hsi.symm
      (fun e' he' => hok e' (List.mem_cons_of_mem e he')) h
    rw [hrec, hspr]
    simp [hpid]

/-! ## Tiling loop lemmas -/

theorem tilesXAux_stop {fuel : Nat} {bw w curX : Int} (h : ¬ curX < bw) :
    tilesXAux fuel bw w curX = some [] := by
  cases fuel <;> simp [tilesXAux, h]

theorem tilesXAux_succ_of_some {fuel : Nat} {bw w curX : Int} {ts' : List (Int × Int)}
    (hlt : curX < bw) (h : tilesXAux fuel bw w (curX + w) = some ts') :
    tilesXAux (fuel + 1) bw w curX =
      some ((curX, if curX + w < bw then w else bw - curX) :: ts') := by
  simp [tilesXAux, if_pos hlt, h]

theorem tilesXAux_spec {bw w : Int} (hw : 0 < w) :
    ∀ (fuel : Nat) (curX : Int), curX < bw → (bw - curX).toNat ≤ fuel →
      ∃ ts, tilesXAux fuel bw w curX = some ts ∧
        (ts.map Prod.snd).sum = bw - curX ∧
        ts.head?.map Prod.fst = some curX ∧
        List.Chain' (fun a b => b.1 = a.1 + w) ts ∧
        (∀ t ∈ ts, curX ≤ t.1 ∧ t.1 < bw ∧ t.1 + t.2 ≤ bw) ∧
        (∀ t ∈ ts.dropLast, t.2 = w) ∧
        (∀ tl, ts.getLast? = some tl → bw ≤ tl.1 + w ∧ tl.2 = bw - tl.1) := by
  intro fuel
  induction fuel with
  | zero =>
    intro curX hlt hfuel
    exact absurd hfuel (by omega)
  | succ fuel ih =>
    intro curX hlt hfuel
    by_cases hnext : curX + w < bw
    · obtain ⟨ts', hts', hsum, hhead, hchain, hbound, hmid, hlast⟩ :=
        ih (curX + w) hnext (by omega)
      have hne : ts' ≠ [] := by
        intro hnil
        rw [hnil] at hhead
        exact absurd hhead (by simp)
      refine ⟨(curX, w) :: ts', ?_, ?_, rfl, ?_, ?_, ?_, ?_⟩
      · rw [tilesXAux_succ_of_some hlt hts', if_pos hnext]
      · simp only [List.map_cons, List.sum_cons]
        omega
      · rw [List.chain'_cons']
        refine ⟨?_, hchain⟩
        intro y hy
        rw [Option.mem_def] at hy
        rw [hy] at hhead
        simp only [Option.map_some', Option.some.injEq] at hhead
        omega
      · intro t ht
        rcases List.mem_cons.mp ht with rfl | ht'
        · exact ⟨le_refl _, hlt, by omega⟩
        · obtain ⟨hb1, hb2, hb3⟩ := hbound t ht'
          exact ⟨by omega, hb2, hb3⟩
      · intro t ht
        rw [List.dropLast_cons_of_ne_nil hne] at ht
        rcases List.mem_cons.mp ht with rfl | ht'
        · rfl
        · exact hmid t ht'
      · intro tl htl
        obtain ⟨z, zs, rfl⟩ : ∃ z zs, ts' = z :: zs := by
          cases ts' with
          | nil => exact absurd rfl hne
          | cons z zs => exact ⟨z, zs, rfl⟩
        rw [List.getLast?_cons_cons] at htl
        exact hlast tl htl
    · refine ⟨[(curX, bw - curX)], ?_, by simp, rfl, List.chain'_singleton _, ?_, by simp, ?_⟩
      · rw [tilesXAux_succ_of_some hlt (tilesXAux_stop hnext), if_neg hnext]
      · intro t ht
        rcases List.mem_singleton.mp ht with rfl
        exact ⟨le_refl _, hlt, by omega⟩
      · intro tl htl
        simp only [List.getLast?_singleton, Option.some.injEq] at htl
        rw [← htl]
        exact ⟨by omega, rfl⟩

/-! ## Decimal rendering: characters and injectivity -/

theorem natStrAux_eq (fuel : Nat) :
    ∀ (n : Nat) (acc : List Char), n ≤ fuel →
      natStrAux fuel n acc = ((Nat.digits 10 n).map Nat.digitChar).reverse ++ acc := by
  induction fuel with
  | zero =>
    intro n acc hn
    interval_cases n
    simp [natStrAux]
  | succ fuel ih =>
    intro n acc hn
    by_cases h0 : n = 0
    · subst h0
      simp [natStrAux]
    · rw [show natStrAux (fuel + 1) n acc
          = natStrAux fuel (n / 10) (Nat.digitChar (n % 10) :: acc) by
        simp [natStrAux, h0]]
      rw [ih (n / 10) _ (by omega)]
      rw [Nat.digits_def' (by norm_num) (Nat.pos_of_ne_zero h0)]
      simp

theorem jsNatStr_eq_digits {n : Nat} (h : n ≠ 0) :
    jsNatStr n = ((Nat.digits 10 n).map Nat.digitChar).reverse := by
  rw [jsNatStr, if_neg h, natStrAux_eq n n [] (le_refl n), List.append_nil]

theorem digitChar_isDigit : ∀ d, d < 10 → (Nat.digitChar d).isDigit = true := by decide

theorem digitChar_inj :
    ∀ d₁, d₁ < 10 → ∀ d₂, d₂ < 10 → Nat.digitChar d₁ = Nat.digitChar d₂ → d₁ = d₂ := by
  decide

theorem jsNatStr_all_digits {n : Nat} : ∀ c ∈ jsNatStr n, c.isDigit = true := by
  by_cases h0 : n = 0
  · subst h0
    intro c hc
    rcases List.mem_singleton.mp hc with rfl
    decide
  · rw [jsNatStr_eq_digits h0]
    intro c hc
    rw [List.mem_reverse] at hc
    obtain ⟨d, hd, rfl⟩ := List.mem_map.mp hc
    exact digitChar_isDigit d (Nat.digits_lt_base (by norm_num) hd)

theorem jsNatStr_ne_nil {n : Nat} : jsNatStr n ≠ [] := by
  by_cases h0 : n = 0
  · subst h0; simp [jsNatStr]
  · rw [jsNatStr_eq_digits h0]
    simp [Nat.digits_ne_nil_iff_ne_zero, h0]

theorem map_digitChar_inj :
    ∀ (l₁ : List Nat), (∀ d ∈ l₁, d < 10) → ∀ (l₂ : List Nat), (∀ d ∈ l₂, d < 10) →
      l₁.map Nat.digitChar = l₂.map Nat.digitChar → l₁ = l₂ := by
  intro l₁
  induction l₁ with
  | nil =>
    intro _ l₂ _ h
    cases l₂ with
    | nil => rfl
    | cons b bs => exact absurd h (by simp)
  | cons a as ih =>
    intro h₁ l₂ h₂ h
    cases l₂ with
    | nil => exact absurd h (by simp)
    | cons b bs =>
      simp only [List.map_cons, List.cons.injEq] at h
      have ha : a = b := digitChar_inj a (h₁ a (List.mem_cons_self a as)) b
        (h₂ b (List.mem_cons_self b bs)) h.1
      rw [ha, ih (fun d hd => h₁ d (List.mem_cons_of_mem a hd)) bs
        (fun d hd => h₂ d (List.mem_cons_of_mem b hd)) h.2]

theorem jsNatStr_inj {a b : Nat} (h : jsNatStr a = jsNatStr b) : a = b := by
  by_cases ha : a = 0 <;> by_cases hb : b = 0
  · omega
  · rw [jsNatStr, if_pos ha, jsNatStr_eq_digits hb] at h
    have : (Nat.digits 10 b).map Nat.digitChar = ['0'] := by
      rw [← List.reverse_reverse ((Nat.digits 10 b).map Nat.digitChar), ← h]
      rfl
    have hd : Nat.digits 10 b = [0] :=
      map_digitChar_inj _ (fun d hd => Nat.digits_lt_base (by norm_num) hd) [0]
        (by simp) (by rw [this]; rfl)
    have := Nat.ofDigits_digits 10 b
    rw [hd] at this
    simp [Nat.ofDigits] at this
    omega
  · rw [jsNatStr_eq_digits ha, jsNatStr, if_pos hb] at h
    have : (Nat.digits 10 a).map Nat.digitChar = ['0'] := by
      rw [← List.reverse_reverse ((Nat.digits 10 a).map Nat.digitChar), h]
      rfl
    have hd : Nat.digits 10 a = [0] :=
      map_digitChar_inj _ (fun d hd => Nat.digits_lt_base (by norm_num) hd) [0]
        (by simp) (by rw [this]; rfl)
    have := Nat.ofDigits_digits 10 a
    rw [hd] at this
    simp [Nat.ofDigits] at this
    omega
  · rw [jsNatStr_eq_digits ha, jsNatStr_eq_digits hb, List.reverse_inj] at h
    have := map_digitChar_inj _ (fun d hd => Nat.digits_lt_base (by norm_num) hd) _
      (fun d hd => Nat.digits_lt_base (by norm_num) hd) h
    exact Nat.digits_inj_iff.mp this

/-- A character of a rendered integer: a decimal digit or the leading minus. -/
def isNumChar (c : Char) : Bool := c.isDigit || c = '-'

theorem jsIntStr_all_numChars {i : Int} : ∀ c ∈ jsIntStr i, isNumChar c = true := by
  intro c hc
  unfold jsIntStr at hc
  split at hc
  · rcases List.mem_cons.mp hc with rfl | hc'
    · rfl
    · simp [isNumChar, jsNatStr_all_digits c hc']
  · simp [isNumChar, jsNatStr_all_digits c hc]

theorem jsIntStr_ne_nil {i : Int} : jsIntStr i ≠ [] := by
  unfold jsIntStr
  split
  · simp
  · exact jsNatStr_ne_nil

theorem jsIntStr_getLast_digit {i : Int} :
    ∀ h : jsIntStr i ≠ [], ((jsIntStr i).getLast h).isDigit = true := by
  intro h
  unfold jsIntStr at h ⊢
  split
  · rw [List.getLast_cons jsNatStr_ne_nil]
    exact jsNatStr_all_digits _ (List.getLast_mem jsNatStr_ne_nil)
  · exact jsNatStr_all_digits _ (List.getLast_mem jsNatStr_ne_nil)

theorem jsIntStr_inj {a b : Int} (h : jsIntStr a = jsIntStr b) : a = b := by
  unfold jsIntStr at h
  split at h <;> split at h
  case isTrue.isTrue ha hb =>
    simp only [List.cons.injEq, true_and] at h
    have := jsNatStr_inj h
    omega
  case isTrue.isFalse ha hb =>
    exfalso
    have : '-' ∈ jsNatStr b.toNat := by rw [← h]; exact List.mem_cons_self _ _
    have := jsNatStr_all_digits _ this
    simp at this
  case isFalse.isTrue ha hb =>
    exfalso
    have : '-' ∈ jsNatStr a.toNat := by rw [h]; exact List.mem_cons_self _ _
    have := jsNatStr_all_digits _ this
    simp at this
  case isFalse.isFalse ha hb =>
    have := jsNatStr_inj h
    omega

/-! ## Reversed rendering and segment cancellation -/

theorem numRev_cons_digit (i : Int) :
    ∃ c cs, numRev i = c :: cs ∧ c.isDigit = true := by
  unfold numRev
  have hne : jsIntStr i ≠ [] := jsIntStr_ne_nil
  have hrev : (jsIntStr i).reverse ≠ [] := by simpa using hne
  obtain ⟨c, cs, hc⟩ := List.exists_cons_of_ne_nil hrev
  refine ⟨c, cs, hc, ?_⟩
  have hh : (jsIntStr i).reverse.head? = some c := by rw [hc]; rfl
  rw [List.head?_reverse] at hh
  have hg : (jsIntStr i).getLast hne = c := by
    have := List.getLast?_eq_getLast (jsIntStr i) hne
    rw [this] at hh
    exact Option.some.inj hh
  rw [← hg]
  exact jsIntStr_getLast_digit hne

theorem numRev_all_numChars {i : Int} : ∀ c ∈ numRev i, isNumChar c = true := by
  intro c hc
  rw [numRev, List.mem_reverse] at hc
  exact jsIntStr_all_numChars c hc

theorem numRev_inj {a b : Int} (h : numRev a = numRev b) : a = b :=
  jsIntStr_inj (List.reverse_inj.mp h)

theorem numRev_cancel {a b : Int} {r₁ r₂ : List Char}
    (h : numRev a ++ '=' :: r₁ = numRev b ++ '=' :: r₂) : a = b ∧ r₁ = r₂ := by
  rcases List.append_eq_append_iff.mp h with ⟨s, hs1, hs2⟩ | ⟨s, hs1, hs2⟩
  · cases s with
    | nil =>
      rw [List.append_nil] at hs1
      obtain rfl := numRev_inj hs1.symm
      rw [List.nil_append] at hs2
      injection hs2 with h1 h2
      exact ⟨rfl, h2⟩
    | cons c cs =>
      exfalso
      have hc : c = '=' := by
        have := hs2
        simp only [List.cons_append, List.cons.injEq] at this
        exact this.1.symm
      have : c ∈ numRev b := by
        rw [hs1]
        exact List.mem_append_right _ (List.mem_cons_self c cs)
      have := numRev_all_numChars c this
      rw [hc] at this
      exact absurd this (by decide)
  · cases s with
    | nil =>
      rw [List.append_nil] at hs1
      obtain rfl := numRev_inj hs1
      rw [List.nil_append] at hs2
      injection hs2 with h1 h2
      exact ⟨rfl, h2.symm⟩
    | cons c cs =>
      exfalso
      have hc : c = '=' := by
        have := hs2
        simp only [List.cons_append, List.cons.injEq] at this
        exact this.1.symm
      have : c ∈ numRev a := by
        rw [hs1]
        exact List.mem_append_right _ (List.mem_cons_self c cs)
      have := numRev_all_numChars c this
      rw [hc] at this
      exact absurd this (by decide)

/-! ## Signature injectivity -/

theorem head_clash {l₁ l₂ r₁ r₂ : List Char} {c₁ c₂ : Char}
    (h : l₁ ++ r₁ = l₂ ++ r₂) (h₁ : l₁.head? = some c₁)
    (h₂ : l₂.head? = some c₂) (hne : c₁ ≠ c₂) : False := by
  have hh := congrArg List.head? h
  rw [List.head?_append, List.head?_append, h₁, h₂] at hh
  have hh' : (some c₁ : Option Char) = some c₂ := hh
  exact hne (Option.some.inj hh')

theorem numRev_head_clash {n : Int} {c : Char} {x₁ x₂ : List Char}
    (hc : c.isDigit = false) (h : numRev n ++ x₁ = c :: x₂) : False := by
  obtain ⟨a, as, hcons, hdig⟩ := numRev_cons_digit n
  rw [hcons] at h
  injection h with h1 h2
  rw [h1, hc] at hdig
  exact absurd hdig (by decide)

theorem strData_inj {s t : String} (h : s.data = t.data) : s = t := by
  cases s
  cases t
  exact congrArg String.mk h

theorem numRev_def (i : Int) : (jsIntStr i).reverse = numRev i := rfl

theorem optSeg_reverse (lit : List Char) (o : Option Int) :
    (optSeg lit o).reverse = optSegRev lit.reverse o := by
  cases o <;> simp [optSeg, optSegRev, numRev]

theorem rev_width_lit :
    (([';', 'w', 'i', 'd', 't', 'h', '='] : List Char)).reverse = '=' :: "htdiw;".data := by decide

theorem rev_valign_lit :
    (([';', 'v', 'a', 'l', 'i', 'g', 'n', '='] : List Char)).reverse = '=' :: "ngilav;".data := by decide

theorem rev_tw_lit :
    (([';', 't', 'o', 't', 'a', 'l', 'w', 'i', 'd', 't', 'h', '='] : List Char)).reverse = '=' :: "htdiwlatot;".data := by decide

theorem rev_th_lit :
    (([';', 't', 'o', 't', 'a', 'l', 'h', 'e', 'i', 'g', 'h', 't', '='] : List Char)).reverse = '=' :: "thgiehlatot;".data := by decide

theorem rev_resize_lit :
    (([';', 'r', 'e', 's', 'i', 'z', 'e', '='] : List Char)).reverse = '=' :: "eziser;".data := by decide

theorem rev_repeat_lit :
    (([';', 'r', 'e', 'p', 'e', 'a', 't', '='] : List Char)).reverse = '=' :: "taeper;".data := by decide

theorem rev_pw_lit :
    (([';', 'p', 'a', 'd', 'w', 'i', 'd', 't', 'h', '='] : List Char)).reverse = '=' :: "htdiwdap;".data := by decide

theorem rev_ph_lit :
    (([';', 'p', 'a', 'd', 'h', 'e', 'i', 'g', 'h', 't', '='] : List Char)).reverse = '=' :: "thgiehdap;".data := by decide

theorem rev_lry_lit :
    (([';', 'l', 'i', 'm', 'i', 't', '-', 'r', 'e', 'p', 'e', 'a', 't', '-', 'y', '='] : List Char)).reverse = '=' :: "y-taeper-timil;".data := by decide

theorem rev_lrx_lit :
    (([';', 'l', 'i', 'm', 'i', 't', '-', 'r', 'e', 'p', 'e', 'a', 't', '-', 'x', '='] : List Char)).reverse = '=' :: "x-taeper-timil;".data := by decide

theorem rev_height_lit :
    (([';', 'h', 'e', 'i', 'g', 'h', 't', '='] : List Char)).reverse = '=' :: "thgieh;".data := by decide

/-- The reversed tail, fully right-nested: the dedup signature read from its
last character backwards is a rigid sequence of segments whose values (ints,
enum members, booleans) contain neither `';'` nor `'='`. -/
theorem tailOf_reverse_append (d : ImgData) (x : List Char) :
    (tailOf d).reverse ++ x =
    numRev d.width ++ '=' :: ("htdiw;".data ++ (d.valign.data.reverse ++
      '=' :: ("ngilav;".data ++ (optSegRev ('=' :: "htdiwlatot;".data) d.totalwidth ++
      (optSegRev ('=' :: "thgiehlatot;".data) d.totalheight ++
      ((boolStr d.resize).reverse ++ '=' :: ("eziser;".data ++
      (d.repeatMode.data.reverse ++ '=' :: ("taeper;".data ++
      (optSegRev ('=' :: "htdiwdap;".data) d.padwidth ++
      (optSegRev ('=' :: "thgiehdap;".data) d.padheight ++
      (numRev d.limitRepeatY ++ '=' :: ("y-taeper-timil;".data ++
      (numRev d.limitRepeatX ++ '=' :: ("x-taeper-timil;".data ++
      (numRev d.height ++ '=' :: ("thgieh;".data ++ x))))))))))))))))) := by
  rw [tailOf]
  simp only [List.reverse_append, optSeg_reverse, List.append_assoc]
  simp only [rev_height_lit, rev_lrx_lit, rev_lry_lit, rev_ph_lit, rev_pw_lit,
    rev_repeat_lit, rev_resize_lit, rev_th_lit, rev_tw_lit, rev_valign_lit,
    rev_width_lit, numRev_def]
  simp only [List.cons_append, List.append_assoc, List.nil_append]

theorem align_cancel {a₁ a₂ : String} (h₁ : a₁ ∈ ["block", "left", "center", "right"])
    (h₂ : a₂ ∈ ["block", "left", "center", "right"]) {r₁ r₂ : List Char}
    (h : a₁.data ++ r₁ = a₂.data ++ r₂) : a₁ = a₂ ∧ r₁ = r₂ := by
  fin_cases h₁ <;> fin_cases h₂ <;>
    first
      | exact ⟨rfl, List.append_cancel_left h⟩
      | exact (head_clash h rfl rfl (by decide)).elim

theorem valign_rev_cancel {v₁ v₂ : String} (h₁ : v₁ ∈ ["block", "bottom", "middle", "top"])
    (h₂ : v₂ ∈ ["block", "bottom", "middle", "top"]) {r₁ r₂ : List Char}
    (h : v₁.data.reverse ++ r₁ = v₂.data.reverse ++ r₂) : v₁ = v₂ ∧ r₁ = r₂ := by
  fin_cases h₁ <;> fin_cases h₂ <;>
    first
      | exact ⟨rfl, List.append_cancel_left h⟩
      | exact (head_clash h rfl rfl (by decide)).elim

theorem repeat_rev_cancel {v₁ v₂ : String} (h₁ : v₁ ∈ ["no", "x", "y"])
    (h₂ : v₂ ∈ ["no", "x", "y"]) {r₁ r₂ : List Char}
    (h : v₁.data.reverse ++ r₁ = v₂.data.reverse ++ r₂) : v₁ = v₂ ∧ r₁ = r₂ := by
  fin_cases h₁ <;> fin_cases h₂ <;>
    first
      | exact ⟨rfl, List.append_cancel_left h⟩
      | exact (head_clash h rfl rfl (by decide)).elim

theorem bool_rev_cancel {b₁ b₂ : Bool} {r₁ r₂ : List Char}
    (h : (boolStr b₁).reverse ++ r₁ = (boolStr b₂).reverse ++ r₂) :
    b₁ = b₂ ∧ r₁ = r₂ := by
  cases b₁ <;> cases b₂
  · exact ⟨rfl, List.append_cancel_left h⟩
  · have h' : (some 's' : Option Char) = some 'u' := congrArg (fun l => l.tail.head?) h
    exact absurd h' (by decide)
  · have h' : (some 'u' : Option Char) = some 's' := congrArg (fun l => l.tail.head?) h
    exact absurd h' (by decide)
  · exact ⟨rfl, List.append_cancel_left h⟩

theorem bool_seg_cancel {rs₁ rs₂ : Bool} {r₁ r₂ : List Char}
    (h : (boolStr rs₁).reverse ++ '=' :: ("eziser;".data ++ r₁) =
        (boolStr rs₂).reverse ++ '=' :: ("eziser;".data ++ r₂)) :
    rs₁ = rs₂ ∧ r₁ = r₂ := by
  obtain ⟨hb, h⟩ := bool_rev_cancel h
  injection h with h1 h2
  exact ⟨hb, List.append_cancel_left h2⟩

theorem ph_cancel {ph₁ ph₂ : Option Int} {y₁ y₂ : Int} {r₁ r₂ : List Char}
    (h : optSegRev ('=' :: "thgiehdap;".data) ph₁ ++
          (numRev y₁ ++ '=' :: ("y-taeper-timil;".data ++ r₁)) =
        optSegRev ('=' :: "thgiehdap;".data) ph₂ ++
          (numRev y₂ ++ '=' :: ("y-taeper-timil;".data ++ r₂))) :
    ph₁ = ph₂ ∧ y₁ = y₂ ∧ r₁ = r₂ := by
  rcases ph₁ with _ | n₁ <;> rcases ph₂ with _ | n₂ <;>
    simp only [optSegRev, List.nil_append, List.cons_append, List.append_assoc] at h
  · obtain ⟨hy, h⟩ := numRev_cancel h
    simp only [List.cons.injEq, eq_self_iff_true, true_and] at h
    exact ⟨rfl, hy, h⟩
  · obtain ⟨-, h⟩ := numRev_cancel h
    simp only [List.cons.injEq] at h
    exact absurd h.1 (by decide)
  · obtain ⟨-, h⟩ := numRev_cancel h
    simp only [List.cons.injEq] at h
    exact absurd h.1 (by decide)
  · obtain ⟨hn, h⟩ := numRev_cancel h
    simp only [List.cons.injEq, eq_self_iff_true, true_and] at h
    obtain ⟨hy, h⟩ := numRev_cancel h
    simp only [List.cons.injEq, eq_self_iff_true, true_and] at h
    exact ⟨by rw [hn], hy, h⟩

theorem pw_cancel {pw₁ pw₂ ph₁ ph₂ : Option Int} {y₁ y₂ : Int} {r₁ r₂ : List Char}
    (h : optSegRev ('=' :: "htdiwdap;".data) pw₁ ++
          (optSegRev ('=' :: "thgiehdap;".data) ph₁ ++
            (numRev y₁ ++ '=' :: ("y-taeper-timil;".data ++ r₁))) =
        optSegRev ('=' :: "htdiwdap;".data) pw₂ ++
          (optSegRev ('=' :: "thgiehdap;".data) ph₂ ++
            (numRev y₂ ++ '=' :: ("y-taeper-timil;".data ++ r₂)))) :
    pw₁ = pw₂ ∧ ph₁ = ph₂ ∧ y₁ = y₂ ∧ r₁ = r₂ := by
  rcases pw₁ with _ | n₁ <;> rcases pw₂ with _ | n₂
  · simp only [optSegRev, List.nil_append] at h
    exact ⟨rfl, ph_cancel h⟩
  · rcases ph₁ with _ | m₁ <;>
      simp only [optSegRev, List.nil_append, List.cons_append, List.append_assoc] at h
    · obtain ⟨-, h⟩ := numRev_cancel h
      simp only [List.cons.injEq] at h
      exact absurd h.1 (by decide)
    · obtain ⟨-, h⟩ := numRev_cancel h
      simp only [List.cons.injEq] at h
      exact absurd h.1 (by decide)
  · rcases ph₂ with _ | m₂ <;>
      simp only [optSegRev, List.nil_append, List.cons_append, List.append_assoc] at h
    · obtain ⟨-, h⟩ := numRev_cancel h
      simp only [List.cons.injEq] at h
      exact absurd h.1 (by decide)
    · obtain ⟨-, h⟩ := numRev_cancel h
      simp only [List.cons.injEq] at h
      exact absurd h.1 (by decide)
  · simp only [optSegRev, List.cons_append, List.append_assoc] at h
    obtain ⟨hn, h⟩ := numRev_cancel h
    simp only [List.cons.injEq, eq_self_iff_true, true_and] at h
    exact ⟨by rw [hn], ph_cancel h⟩

theorem th_cancel {th₁ th₂ : Option Int} {rs₁ rs₂ : Bool} {r₁ r₂ : List Char}
    (h : optSegRev ('=' :: "thgiehlatot;".data) th₁ ++
          ((boolStr rs₁).reverse ++ '=' :: ("eziser;".data ++ r₁)) =
        optSegRev ('=' :: "thgiehlatot;".data) th₂ ++
          ((boolStr rs₂).reverse ++ '=' :: ("eziser;".data ++ r₂))) :
    th₁ = th₂ ∧ rs₁ = rs₂ ∧ r₁ = r₂ := by
  rcases th₁ with _ | n₁ <;> rcases th₂ with _ | n₂
  · simp only [optSegRev, List.nil_append] at h
    exact ⟨rfl, bool_seg_cancel h⟩
  · simp only [optSegRev, List.nil_append, List.cons_append, List.append_assoc] at h
    cases rs₁ <;> exact (numRev_head_clash (by decide) h.symm).elim
  · simp only [optSegRev, List.nil_append, List.cons_append, List.append_assoc] at h
    cases rs₂ <;> exact (numRev_head_clash (by decide) h).elim
  · simp only [optSegRev, List.cons_append, List.append_assoc] at h
    obtain ⟨hn, h⟩ := numRev_cancel h
    simp only [List.cons.injEq, eq_self_iff_true, true_and] at h
    exact ⟨by rw [hn], bool_seg_cancel h⟩

theorem tw_cancel {tw₁ tw₂ th₁ th₂ : Option Int} {rs₁ rs₂ : Bool} {r₁ r₂ : List Char}
    (h : optSegRev ('=' :: "htdiwlatot;".data) tw₁ ++
          (optSegRev ('=' :: "thgiehlatot;".data) th₁ ++
            ((boolStr rs₁).reverse ++ '=' :: ("eziser;".data ++ r₁))) =
        optSegRev ('=' :: "htdiwlatot;".data) tw₂ ++
          (optSegRev ('=' :: "thgiehlatot;".data) th₂ ++
            ((boolStr rs₂).reverse ++ '=' :: ("eziser;".data ++ r₂)))) :
    tw₁ = tw₂ ∧ th₁ = th₂ ∧ rs₁ = rs₂ ∧ r₁ = r₂ := by
  rcases tw₁ with _ | n₁ <;> rcases tw₂ with _ | n₂
  · simp only [optSegRev, List.nil_append] at h
    exact ⟨rfl, th_cancel h⟩
  · rcases th₁ with _ | m₁ <;>
      simp only [optSegRev, List.nil_append, List.cons_append, List.append_assoc] at h
    · cases rs₁ <;> exact (numRev_head_clash (by decide) h.symm).elim
    · obtain ⟨-, h⟩ := numRev_cancel h
      simp only [List.cons.injEq] at h
      exact absurd h.1 (by decide)
  · rcases th₂ with _ | m₂ <;>
      simp only [optSegRev, List.nil_append, List.cons_append, List.append_assoc] at h
    · cases rs₂ <;> exact (numRev_head_clash (by decide) h).elim
    · obtain ⟨-, h⟩ := numRev_cancel h
      simp only [List.cons.injEq] at h
      exact absurd h.1 (by decide)
  · simp only [optSegRev, List.cons_append, List.append_assoc] at h
    obtain ⟨hn, h⟩ := numRev_cancel h
    simp only [List.cons.injEq, eq_self_iff_true, true_and] at h
    exact ⟨by rw [hn], th_cancel h⟩

/-- Injectivity of the canonical signature on validated records: two records
with the same signature are equal. -/
theorem hashChars_inj {d₁ d₂ : ImgData} (hv₁ : ValidData d₁) (hv₂ : ValidData d₂)
    (h : hashChars d₁ = hashChars d₂) : d₁ = d₂ := by
  obtain ⟨ha₁, hva₁, hr₁⟩ := hv₁
  obtain ⟨ha₂, hva₂, hr₂⟩ := hv₂
  unfold hashChars at h
  simp only [List.append_assoc] at h
  replace h := List.append_cancel_left h
  obtain ⟨haeq, h⟩ := align_cancel ha₁ ha₂ h
  replace h := List.append_cancel_left h
  have hrev := congrArg List.reverse h
  rw [List.reverse_append, List.reverse_append, tailOf_reverse_append,
    tailOf_reverse_append] at hrev
  obtain ⟨hw, hrev⟩ := numRev_cancel hrev
  replace hrev := List.append_cancel_left hrev
  obtain ⟨hvaeq, hrev⟩ := valign_rev_cancel hva₁ hva₂ hrev
  injection hrev with hdrop hrev
  replace hrev := List.append_cancel_left hrev
  obtain ⟨htw, hth, hrs, hrev⟩ := tw_cancel hrev
  obtain ⟨hrpeq, hrev⟩ := repeat_rev_cancel hr₁ hr₂ hrev
  injection hrev with hdrop2 hrev
  replace hrev := List.append_cancel_left hrev
  obtain ⟨hpw, hph, hly, hrev⟩ := pw_cancel hrev
  obtain ⟨hlx, hrev⟩ := numRev_cancel hrev
  replace hrev := List.append_cancel_left hrev
  obtain ⟨hh, hrev⟩ := numRev_cancel hrev
  replace hrev := List.append_cancel_left hrev
  have hf : d₁.filename = d₂.filename :=
    strData_inj (List.reverse_inj.mp hrev)
  obtain ⟨w₁, hh₁, a₁, va₁, rs₁, rp₁, ly₁, lx₁, f₁, tw₁, th₁, pw₁, ph₁⟩ := d₁
  obtain ⟨w₂, hh₂, a₂, va₂, rs₂, rp₂, ly₂, lx₂, f₂, tw₂, th₂, pw₂, ph₂⟩ := d₂
  simp only at haeq hvaeq hrpeq hw hh hlx hly htw hth hpw hph hrs hf
  rw [haeq, hvaeq, hrpeq, hw, hh, hlx, hly, htw, hth, hpw, hph, hrs, hf]

/-- C2: the claimed `blockWidth` case split does not hold of the code.  At
repeat `no`, align `block`, explicit width 30 (the claim's last case, which
should give the numeric width 30), the resolution pass records the symbolic
`"100%"` instead: the first disjunct
`(repeat=="x" && limit-repeat-x || "100%")` of the source expression is
always truthy, so the `align`/`width` branches are unreachable. -/
theorem c2_blockWidth_code_eval :
    ((runRegs initState [⟨"c.png", 3, some "width:30"⟩]).toOption.bind (fun r =>
        build (fun _ => .ok (20, 20)) {} r.2 "n")).map
      (fun o => match o with
        | .completed r => r.final.processedImages.map (fun p => p.blockWidth)
        | .thrown _ => []) = some [.str "100%"] ∧
    blockWidthExpr { getDefaults "c.png" with width := 30 } = .str "100%" ∧
    JSVal.str "100%" ≠ JSVal.num 30 := by
  refine ⟨by decide, by decide, by decide⟩

/-- C3: a failing decode does not abort the build.  With a single registered
image whose decode fails, the callback first receives the annotated error,
but `build` then continues (the source does not `return` after
`callback(err)`), writes the sprite file, and invokes the callback a second
time with a success result. -/
theorem c3_build_continues_after_error :
    ((runRegs initState [⟨"a.png", 7, none⟩]).toOption.bind (fun r =>
        build (fun _ => .error "ENOENT") {} r.2 "q 'SPRITE_PLACEHOLDER(1)' r")).map
      (fun o => match o with
        | .completed r => some (r.calls, r.fileWritten)
        | .thrown _ => none)
    = some (some ([.err "ENOENT; CSS line nr #7",
                   .ok "q 'SPRITE_PLACEHOLDER(1)' r"], true)) := by
  decide

/-- C8: the two-registration example end to end: `a.png` (20×20) with no
options and `b.png` (10×10) with `align:right; height:40` get distinct ids
1 and 2; the accumulated canvas height is `(20+10) + (40+10) = 80`; block 2
is drawn right-aligned at `curX = 20-10 = 10` with `startY = 30`, and its
css replacement is `"100% -30px"`. -/
theorem c8_end_to_end :
    ((runRegs initState [⟨"a.png", 1, none⟩,
        ⟨"b.png", 2, some "align:right; height:40"⟩]).toOption.map Prod.fst
      = some [1, 2]) ∧
    (((runRegs initState [⟨"a.png", 1, none⟩,
        ⟨"b.png", 2, some "align:right; height:40"⟩]).toOption.bind (fun r =>
        build (fun p => if p = "a.png" then .ok (20, 20)
            else if p = "b.png" then .ok (10, 10) else .error "missing") {} r.2
          "u 'SPRITE_PLACEHOLDER(1)' v 'SPRITE_PLACEHOLDER(2)' w")).map
      (fun o => match o with
        | .completed r => some (r.final.canvasHeight, r.replacements)
        | .thrown _ => none)
    = some (some (80, [(1, "-0px -0px"), (2, "100% -30px")]))) ∧
    (((runRegs initState [⟨"a.png", 1, none⟩,
        ⟨"b.png", 2, some "align:right; height:40"⟩]).toOption.bind (fun r =>
        build (fun p => if p = "a.png" then .ok (20, 20)
            else if p = "b.png" then .ok (10, 10) else .error "missing") {} r.2
          "u 'SPRITE_PLACEHOLDER(1)' v 'SPRITE_PLACEHOLDER(2)' w")).map
      (fun o => match o with
        | .completed r => r.drawOps
        | .thrown _ => [])
    = some [(0, 0, 20, 20), (10, 30, 10, 40)]) ∧
    (((runRegs initState [⟨"a.png", 1, none⟩,
        ⟨"b.png", 2, some "align:right; height:40"⟩]).toOption.bind (fun r =>
        build (fun p => if p = "a.png" then .ok (20, 20)
            else if p = "b.png" then .ok (10, 10) else .error "missing") {} r.2
          "u 'SPRITE_PLACEHOLDER(1)' v 'SPRITE_PLACEHOLDER(2)' w")).map
      (fun o => match o with
        | .completed r => r.calls
        | .thrown _ => [])
    = some [.ok "u -0px -0px v 100% -30px w"]) := by
  refine ⟨by decide, by decide, by decide, by decide⟩

/-- C9: `validate` raises on an unrecognized key for every value; raises on
a numeric key whose value does not parse; raises on an enumerated key whose
value is outside the allowed set; maps `"false"`, `"0"`, empty and absent
boolean values to `false` and every other string to `true` (so
`resize:0` is `false`); and a `validate` failure makes the whole
`spritefunc` registration abort with an error and no partial record. -/
theorem c9_validate_semantics :
    (∀ v : Option String, ∃ e, validate "bogus" v = .error e) ∧
    (∃ e, validate "width" (some "abc") = .error e) ∧
    (∀ k vs, keys k = some (.predefined vs) →
      ∀ v, v ∉ vs → ∃ e, validate k (some v) = .error e) ∧
    (validate "resize" (some "false") = .ok (.bool false) ∧
      validate "resize" (some "0") = .ok (.bool false) ∧
      validate "resize" (some "") = .ok (.bool false) ∧
      validate "resize" none = .ok (.bool false)) ∧
    (∀ v : String, v ≠ "false" → v ≠ "0" → v ≠ "" →
      validate "resize" (some v) = .ok (.bool true)) ∧
    (∀ st f l o e, mergedOf f o = .error e → spritefunc st f l o = .error e) := by
  refine ⟨fun v => ⟨_, rfl⟩, ⟨_, rfl⟩, ?_, ⟨rfl, rfl, rfl, rfl⟩, ?_, ?_⟩
  · intro k vs hk v hv
    unfold validate
    rw [hk]
    simp only [hv, if_false]
    exact ⟨_, rfl⟩
  · intro v h1 h2 h3
    have e1 : (v == "false") = false := beq_eq_false_iff_ne.mpr h1
    have e2 : (v == "0") = false := beq_eq_false_iff_ne.mpr h2
    have e3 : (v == "") = false := beq_eq_false_iff_ne.mpr h3
    simp [validate, keys, e1, e2, e3]
  · intro st f l o e h
    simp [spritefunc, h]

/-- C9 witness: the theorem applied at concrete inputs. -/
theorem c9_validate_semantics_witness :
    (∃ e, validate "repeat" (some "z") = .error e) ∧
    validate "resize" (some "yes") = .ok (.bool true) ∧
    (∃ e, validate "bogus" (some "1") = .error e) ∧
    spritefunc initState "a.png" 1 (some "bogus:1") = .error "Invalid key 'bogus'" :=
  ⟨c9_validate_semantics.2.2.1 "repeat" _ rfl "z" (by decide),
   c9_validate_semantics.2.2.2.2.1 "yes" (by decide) (by decide) (by decide),
   c9_validate_semantics.1 (some "1"),
   c9_validate_semantics.2.2.2.2.2 initState "a.png" 1 (some "bogus:1")
     "Invalid key 'bogus'" (by decide)⟩

/-- C6: the claim as stated is false.  Registering `a.png` (natural size
20×20) with `width:5` leaves the canvas 5 pixels wide after the resolution
pass, below the maximal natural image width 20: the accumulator is raised to
the *requested* `width`, not to `imageWidth`. -/
theorem c6_counterexample :
    (((runRegs initState [⟨"a.png", 3, some "width:5"⟩]).toOption.bind (fun r =>
        build (fun _ => .ok (20, 20)) {} r.2 "n")).map
      (fun o => match o with
        | .completed r =>
          some (r.final.canvasWidth, r.final.processedImages.map (fun p => p.imageWidth))
        | .thrown _ => none)
    = some (some (5, [20]))) ∧ ¬ ((5 : Int) ≥ 20) := by
  refine ⟨by decide, by decide⟩

/-- C6 (amended): after the resolution pass the canvas width is at least
the resolved requested `width` of every processed record — hence at least
the natural image width of every record that does not explicitly request a
smaller width.  (The unamended bound by `imageWidth` fails, see the
counterexample.) -/
theorem c6_amended_canvasWidth {decode : Decoder} {cfg : SpriteConfig} {css : String}
    {regs : List RegInput} {ids : List Nat} {st : SpriteState} {r : BuildResult}
    (hr : runRegs initState regs = .ok (ids, st))
    (hb : build decode cfg st css = some (.completed r)) :
    ∀ p ∈ r.final.processedImages, p.data.width ≤ r.final.canvasWidth := by
  have hinit : RegInv initState :=
    ⟨fun e he => absurd he (List.not_mem_nil e), List.Pairwise.nil⟩
  obtain ⟨-, -, hpr, -, -, -, -, -, -⟩ := runRegs_inv regs initState ids st hinit hr
  obtain ⟨-, -, -, -, h5, -⟩ := buildAux_invariants st.images st none [] r rfl hb
  refine h5 ?_
  intro p hp
  rw [hpr] at hp
  exact absurd hp (List.not_mem_nil p)

/-- C6 witness: the amended theorem applied to the counterexample run. -/
theorem c6_amended_canvasWidth_witness :
    ∃ ids st r,
      runRegs initState [⟨"a.png", 3, some "width:5"⟩] = .ok (ids, st) ∧
      build (fun _ => .ok (20, 20)) {} st "n" = some (.completed r) ∧
      ∀ p ∈ r.final.processedImages, p.data.width ≤ r.final.canvasWidth := by
  obtain ⟨⟨ids, st⟩, hru, r, hb⟩ :
      ∃ p, runRegs initState [⟨"a.png", 3, some "width:5"⟩] = .ok p ∧
        ∃ r, build (fun _ => .ok (20, 20)) {} p.2 "n" = some (.completed r) :=
    ⟨_, rfl, _, rfl⟩
  exact ⟨ids, st, r, hru, hb, c6_amended_canvasWidth hru hb⟩

/-- C5: after a successful build from a fresh instance (every registered
image decodes), the accumulated canvas height equals the sum, over the
processed records in first-seen registration order, of
`blockHeight + padding` with `padding = 10`; every registered spec is
processed exactly once (in particular a `repeat:y` spec contributes its
`blockHeight + padding` once, independent of the tiles drawn later). -/
theorem c5_canvasHeight_sum {decode : Decoder} {cfg : SpriteConfig} {css : String}
    {regs : List RegInput} {ids : List Nat} {st : SpriteState} {r : BuildResult}
    (hr : runRegs initState regs = .ok (ids, st))
    (hb : build decode cfg st css = some (.completed r))
    (hok : ∀ e ∈ st.images, DecodeOK decode cfg e) :
    padding = 10 ∧
    r.final.canvasHeight =
      ((r.final.processedImages.map (fun p => p.blockHeight + padding)).sum) ∧
    r.final.processedImages.map (fun p => p.imgId) =
      st.images.map (fun e => e.imgId) := by
  have hinit : RegInv initState :=
    ⟨fun e he => absurd he (List.not_mem_nil e), List.Pairwise.nil⟩
  obtain ⟨-, -, hpr, -, hch, -, -, -, -⟩ := runRegs_inv regs initState ids st hinit hr
  obtain ⟨-, -, -, -, -, h6⟩ := buildAux_invariants st.images st none [] r rfl hb
  have hmap := buildAux_all_processed st.images st none [] r rfl hok hb
  refine ⟨rfl, h6 ?_, ?_⟩
  · rw [hpr, hch]
    rfl
  · rw [hmap, hpr]
    rfl

/-- C5 witness: applied to a run with a `repeat:y` block (`b.png`, 10×10,
`repeat:y` with the default `limit-repeat-y` 300) and a plain block. -/
theorem c5_canvasHeight_sum_witness :
    ∃ ids st r,
      runRegs initState [⟨"a.png", 1, none⟩, ⟨"b.png", 2, some "repeat:y"⟩]
        = .ok (ids, st) ∧
      build (fun p => if p = "a.png" then .ok (20, 20) else .ok (10, 10)) {} st "n"
        = some (.completed r) ∧
      padding = 10 ∧
      r.final.canvasHeight =
        ((r.final.processedImages.map (fun p => p.blockHeight + padding)).sum) ∧
      r.final.processedImages.map (fun p => p.imgId) =
        st.images.map (fun e => e.imgId) := by
  obtain ⟨⟨ids, st⟩, hru, hok, r, hb⟩ :
      ∃ p, runRegs initState [⟨"a.png", 1, none⟩, ⟨"b.png", 2, some "repeat:y"⟩]
          = .ok p ∧
        (∀ e ∈ p.2.images,
          DecodeOK (fun q => if q = "a.png" then .ok (20, 20) else .ok (10, 10)) {} e) ∧
        ∃ r, build (fun q => if q = "a.png" then .ok (20, 20) else .ok (10, 10)) {}
          p.2 "n" = some (.completed r) := by
    refine ⟨_, rfl, ?_, _, rfl⟩
    intro e he
    simp only [initState, List.nil_append, List.mem_append, List.mem_singleton,
      List.mem_cons, List.not_mem_nil, false_or, or_false] at he
    rcases he with rfl | rfl
    · exact ⟨by decide, 20, 20, rfl⟩
    · exact ⟨by decide, 10, 10, rfl⟩
  exact ⟨ids, st, r, hru, hb, c5_canvasHeight_sum hru hb hok⟩

/-- C10: `build` destructively consumes the pending registration list, so
after a completed build the pending list is empty and a subsequent
`spritefunc` call — whatever its filename and option string — never finds a
cached record: it returns the fresh id `imgId + 1`, distinct from every id
issued before the build (the id counter is preserved by the build). -/
theorem c10_build_consumes_registry {decode : Decoder} {cfg : SpriteConfig}
    {css : String} {regs : List RegInput} {ids : List Nat} {st : SpriteState}
    {r : BuildResult}
    (hr : runRegs initState regs = .ok (ids, st))
    (hb : build decode cfg st css = some (.completed r)) :
    r.final.images = [] ∧
    ∀ f l o id' st'', spritefunc r.final f l o = .ok (id', st'') →
      id' = st.imgId + 1 ∧ ∀ i ∈ ids, id' ≠ i := by
  have hinit : RegInv initState :=
    ⟨fun e he => absurd he (List.not_mem_nil e), List.Pairwise.nil⟩
  obtain ⟨-, -, -, -, -, -, -, hbound, -⟩ := runRegs_inv regs initState ids st hinit hr
  obtain ⟨h1, h2, -, -, -, -⟩ := buildAux_invariants st.images st none [] r rfl hb
  refine ⟨h1, ?_⟩
  intro f l o id' st'' hsp
  unfold spritefunc at hsp
  cases hm : mergedOf f o with
  | error e => rw [hm] at hsp; exact absurd hsp (by simp)
  | ok d =>
    rw [hm] at hsp
    dsimp only at hsp
    rw [h1] at hsp
    simp only [List.filter_nil, List.getLast?_nil, Except.ok.injEq, Prod.mk.injEq] at hsp
    obtain ⟨hid, -⟩ := hsp
    refine ⟨by rw [← hid, h2], ?_⟩
    intro i hi
    have := (hbound i hi).2
    omega

/-- C10 witness: after building the two-registration example, re-registering
`b.png` with the same options yields the fresh id 3, not the cached id 2. -/
theorem c10_build_consumes_registry_witness :
    ∃ ids st r,
      runRegs initState [⟨"a.png", 1, none⟩, ⟨"b.png", 2, some "align:right"⟩]
        = .ok (ids, st) ∧
      build (fun p => if p = "a.png" then .ok (20, 20) else .ok (10, 10)) {} st "n"
        = some (.completed r) ∧
      r.final.images = [] ∧
      ∀ id' st'', spritefunc r.final "b.png" 9 (some "align:right") = .ok (id', st'') →
        id' = st.imgId + 1 ∧ ∀ i ∈ ids, id' ≠ i := by
  obtain ⟨⟨ids, st⟩, hru, r, hb⟩ :
      ∃ p, runRegs initState [⟨"a.png", 1, none⟩, ⟨"b.png", 2, some "align:right"⟩]
          = .ok p ∧
        ∃ r, build (fun q => if q = "a.png" then .ok (20, 20) else .ok (10, 10)) {}
          p.2 "n" = some (.completed r) := ⟨_, rfl, _, rfl⟩
  refine ⟨ids, st, r, hru, hb, (c10_build_consumes_registry hru hb).1, ?_⟩
  intro id' st'' hsp
  exact (c10_build_consumes_registry hru hb).2 "b.png" 9 (some "align:right") id' st'' hsp

/-- C7: the `repeat:x` tiling loop (as invoked with `limit-repeat-x = 0`,
when the symbolic block width resolves to `canvasWidth`): for a positive
tile width `w` and a non-negative block width, the loop terminates, starts
at `curX = 0`, advances in steps of `w`, gives every tile except the last
the full width `w`, clips the last tile to `blockWidth - curX`, stops at the
first position `≥ blockWidth`, and the tile widths sum to exactly
`blockWidth`, no copy extending past it.  The first conjunct records that a
`repeat:x` record with zero `limit-repeat-x` indeed gets the symbolic
fill-canvas block width. -/
theorem c7_repeat_x_tiling {bw w : Int} (hw : 0 < w) (hbw : 0 ≤ bw) :
    (∀ d : ImgData, d.repeatMode = "x" → d.limitRepeatX = 0 →
      blockWidthExpr d = .str "100%") ∧
    ∃ ts, tilingX bw w = some ts ∧
      (ts.map Prod.snd).sum = bw ∧
      (0 < bw → ts.head?.map Prod.fst = some 0) ∧
      (bw = 0 → ts = []) ∧
      List.Chain' (fun a b => b.1 = a.1 + w) ts ∧
      (∀ t ∈ ts, 0 ≤ t.1 ∧ t.1 < bw ∧ t.1 + t.2 ≤ bw) ∧
      (∀ t ∈ ts.dropLast, t.2 = w) ∧
      (∀ tl, ts.getLast? = some tl → bw ≤ tl.1 + w ∧ tl.2 = bw - tl.1) := by
  refine ⟨?_, ?_⟩
  · intro d h1 h2
    simp [blockWidthExpr, jsOr, jsAnd, JSVal.truthy, h1, h2]
  by_cases h0 : 0 < bw
  · obtain ⟨ts, hts, hsum, hhead, hchain, hbound, hmid, hlast⟩ :=
      tilesXAux_spec hw (bw.toNat + 1) 0 h0 (by omega)
    exact ⟨ts, hts, by omega, fun _ => hhead, fun hz => absurd hz (by omega),
      hchain, hbound, hmid, hlast⟩
  · have hz : bw = 0 := by omega
    subst hz
    refine ⟨[], tilesXAux_stop (by omega), rfl, fun hc => absurd hc (by omega),
      fun _ => rfl, List.chain'_nil, ?_, ?_, ?_⟩
    · intro t ht; exact absurd ht (List.not_mem_nil t)
    · intro t ht; exact absurd ht (by simp at ht)
    · intro tl htl; exact absurd htl (by simp)

/-- C7 witness: block width 20, tile width 8 gives tiles at 0, 8, 16 with
widths 8, 8 and a clipped 4, summing to 20. -/
theorem c7_repeat_x_tiling_witness :
    tilingX 20 8 = some [(0, 8), (8, 8), (16, 4)] ∧
    ∃ ts, tilingX 20 8 = some ts ∧ (ts.map Prod.snd).sum = 20 := by
  have h := (@c7_repeat_x_tiling 20 8 (by decide) (by decide)).2
  obtain ⟨ts, hts, hsum, -⟩ := h
  exact ⟨by decide, ts, hts, hsum⟩

/-- Two stored registry entries that agree on the id or on the signature are
the same entry (the pairwise-distinctness half of `RegInv`). -/
theorem regEntry_unique {st : SpriteState} (hinv : RegInv st) {a b : RegEntry}
    (ha : a ∈ st.images) (hb : b ∈ st.images)
    (h : a.imgId = b.imgId ∨ a.hash = b.hash) : a = b := by
  by_contra hne
  have hsym : Symmetric (fun x y : RegEntry => x.imgId ≠ y.imgId ∧ x.hash ≠ y.hash) := by
    intro x y hxy
    exact ⟨fun e => hxy.1 e.symm, fun e => hxy.2 e.symm⟩
  have hR := List.Pairwise.forall hsym hinv.2 ha hb hne
  rcases h with h | h
  · exact hR.1 h
  · exact hR.2 h

/-- C1: the dedup contract of `spritefunc`.  Over any sequence of
registrations on a fresh instance (before any build), two calls return the
same placeholder id precisely when their fully-merged attribute records —
the defaults overlaid with the validated option values, plus the
filename — are equal.  Since the merge trims whitespace and the signature
sorts the keys, clause order and whitespace around keys or values cannot
change the id, while a different filename or a differing validated value
always yields a different id. -/
theorem c1_spritefunc_dedup {regs : List RegInput} {ids : List Nat}
    {st : SpriteState} (hr : runRegs initState regs = .ok (ids, st))
    {i j : Nat} (hi : i < ids.length) (hj : j < ids.length)
    (hi' : i < regs.length) (hj' : j < regs.length) :
    ids.get ⟨i, hi⟩ = ids.get ⟨j, hj⟩ ↔
      mergedOf (regs.get ⟨i, hi'⟩).filename (regs.get ⟨i, hi'⟩).options =
      mergedOf (regs.get ⟨j, hj'⟩).filename (regs.get ⟨j, hj'⟩).options := by
  have hinit : RegInv initState :=
    ⟨fun e he => absurd he (List.not_mem_nil e), List.Pairwise.nil⟩
  obtain ⟨hinv, -, -, -, -, -, -, -, hk⟩ := runRegs_inv regs initState ids st hinit hr
  obtain ⟨di, hdi, hvi, ei, hei, heidi, heihash⟩ := hk i hi' hi
  obtain ⟨dj, hdj, hvj, ej, hej, hejdj, hejhash⟩ := hk j hj' hj
  rw [hdi, hdj]
  constructor
  · intro hij
    have hee : ei = ej := regEntry_unique hinv hei hej (Or.inl (by rw [heidi, hejdj, hij]))
    have hh : hashOf di = hashOf dj := by rw [← heihash, ← hejhash, hee]
    have hde : di = dj := hashChars_inj hvi hvj (congrArg String.data hh)
    rw [hde]
  · intro hmm
    have hde : di = dj := by injection hmm
    have hee : ei = ej := regEntry_unique hinv hei hej
      (Or.inr (by rw [heihash, hejhash, hde]))
    rw [← heidi, ← hejdj, hee]

/-- C1 witness: three registrations — `a.png` with `width:30; height:40`,
`a.png` again with the clauses reordered and extra whitespace, and `b.png`
with the same options.  The first two share an id; the third id differs. -/
theorem c1_spritefunc_dedup_witness :
    ∃ ids st,
      runRegs initState
        [⟨"a.png", 1, some "width:30; height:40"⟩,
         ⟨"a.png", 2, some " height : 40 ;width:30"⟩,
         ⟨"b.png", 3, some "width:30; height:40"⟩] = .ok (ids, st) ∧
      ids = [1, 1, 2] ∧
      ∃ (h₀ : 0 < ids.length) (h₁ : 1 < ids.length) (h₂ : 2 < ids.length),
        ids.get ⟨0, h₀⟩ = ids.get ⟨1, h₁⟩ ∧ ids.get ⟨0, h₀⟩ ≠ ids.get ⟨2, h₂⟩ := by
  obtain ⟨⟨ids, st⟩, hru⟩ :
      ∃ p, runRegs initState
        [⟨"a.png", 1, some "width:30; height:40"⟩,
         ⟨"a.png", 2, some " height : 40 ;width:30"⟩,
         ⟨"b.png", 3, some "width:30; height:40"⟩] = .ok p := ⟨_, rfl⟩
  have hids : ids = [1, 1, 2] := by
    have h2 : Except.map Prod.fst (runRegs initState
        [⟨"a.png", 1, some "width:30; height:40"⟩,
         ⟨"a.png", 2, some " height : 40 ;width:30"⟩,
         ⟨"b.png", 3, some "width:30; height:40"⟩])
        = Except.ok [1, 1, 2] := by decide
    rw [hru] at h2
    simpa [Except.map] using h2
  subst hids
  refine ⟨[1, 1, 2], st, hru, rfl, by decide, by decide, by decide, ?_, ?_⟩
  · exact (c1_spritefunc_dedup hru (by decide) (by decide) (by decide) (by decide)).mpr
      (by decide)
  · intro heq
    have := (c1_spritefunc_dedup hru (by decide) (by decide) (by decide) (by decide)).mp heq
    exact absurd this (by decide)

/-! ## Shape lemmas for the quoted placeholder token -/

/-- The quoted token written out as a cons cell on its opening quote. -/
theorem qtokChars_eq (m : Nat) :
    qtokChars m = '\'' :: (Pv ++ '(' :: (jsNatStr m ++ [')', '\''])) := by
  simp [qtokChars, tokChars]

/-- The quoted token with a continuation, fully right-nested. -/
theorem qtokChars_decomp (m : Nat) (x : List Char) :
    qtokChars m ++ x = '\'' :: (Pv ++ '(' :: (jsNatStr m ++ ')' :: '\'' :: x)) := by
  simp [qtokChars, tokChars]

/-- The placeholder prefix occurs inside its own quoted token. -/
theorem pv_infix_qtokChars (n : Nat) : Pv <:+: qtokChars n := by
  refine ⟨['\''], '(' :: (jsNatStr n ++ [')', '\'']), ?_⟩
  rw [qtokChars_eq]
  simp

/-- No single quote occurs in a bare token. -/
theorem tokChars_no_quote {n : Nat} : ∀ c ∈ tokChars n, c ≠ '\'' := by
  intro c hc
  simp only [tokChars, List.mem_append, List.mem_cons, List.mem_singleton,
    List.not_mem_nil, or_false] at hc
  rcases hc with hc | hc | hc | hc
  · exact (by decide : ∀ c ∈ Pv, c ≠ '\'') c hc
  · subst hc; decide
  · have hdig := jsNatStr_all_digits c hc
    intro hq
    subst hq
    exact absurd hdig (by decide)
  · subst hc; decide

/-- A rendered-number character is neither a placeholder character nor a
quote. -/
theorem numChar_benign {c : Char} (h : isNumChar c = true) :
    isPchar c = false ∧ c ≠ '\'' := by
  simp only [isNumChar, Bool.or_eq_true, decide_eq_true_eq] at h
  rcases h with h | h
  · constructor
    · by_contra hP
      rw [Bool.not_eq_false] at hP
      have hmem : c ∈ Pv := by simpa [isPchar] using hP
      have hnd : ∀ d ∈ Pv, d.isDigit = false := by decide
      rw [hnd c hmem] at h
      exact Bool.noConfusion h
    · intro hq; subst hq; exact absurd h (by decide)
  · subst h
    exact ⟨by decide, by decide⟩

/-! ## Decomposing an occurrence across an append -/

/-- An infix occurrence in `x ++ y` lies in `x`, lies in `y`, or straddles
the seam. -/
theorem infix_append_cases {l x y : List Char} (h : l <:+: x ++ y) :
    l <:+: x ∨ l <:+: y ∨
      ∃ l₁ l₂, l = l₁ ++ l₂ ∧ l₁ ≠ [] ∧ l₂ ≠ [] ∧ l₁ <:+ x ∧ l₂ <+: y := by
  obtain ⟨s, t, hst⟩ := h
  rcases List.append_eq_append_iff.mp hst with ⟨u, hx, ht⟩ | ⟨u, hsl, hy⟩
  · exact Or.inl ⟨s, u, hx.symm⟩
  · rcases List.append_eq_append_iff.mp hsl with ⟨v, hx2, hl⟩ | ⟨v, hs2, hu2⟩
    · cases u with
      | nil =>
        rw [List.append_nil] at hl
        subst hl
        exact Or.inl ⟨s, [], by rw [List.append_nil]; exact hx2.symm⟩
      | cons d u' =>
        cases v with
        | nil =>
          rw [List.nil_append] at hl
          subst hl
          exact Or.inr (Or.inl ⟨[], t, by rw [List.nil_append]; exact hy.symm⟩)
        | cons e v' =>
          exact Or.inr (Or.inr ⟨e :: v', d :: u', hl, by simp, by simp,
            ⟨s, hx2.symm⟩, ⟨t, hy.symm⟩⟩)
    · refine Or.inr (Or.inl ⟨v, t, ?_⟩)
      rw [hy, hu2]

/-- Cancelling rendered numbers that are each terminated by `')'`. -/
theorem natStr_cancel {a b : Nat} {r₁ r₂ : List Char}
    (h : jsNatStr a ++ ')' :: r₁ = jsNatStr b ++ ')' :: r₂) : a = b ∧ r₁ = r₂ := by
  rcases List.append_eq_append_iff.mp h with ⟨u, hb, hr⟩ | ⟨u, ha, hr⟩
  · cases u with
    | nil =>
      rw [List.append_nil] at hb
      rw [List.nil_append] at hr
      injection hr with hr1 hr2
      exact ⟨jsNatStr_inj hb.symm, hr2⟩
    | cons d u' =>
      rw [List.cons_append] at hr
      injection hr with h1 h2
      have hd : d ∈ jsNatStr b := by
        rw [hb]; exact List.mem_append_right _ (List.mem_cons_self d u')
      have hdig := jsNatStr_all_digits d hd
      rw [← h1] at hdig
      exact absurd hdig (by decide)
  · cases u with
    | nil =>
      rw [List.append_nil] at ha
      rw [List.nil_append] at hr
      injection hr with hr1 hr2
      exact ⟨jsNatStr_inj ha, hr2.symm⟩
    | cons d u' =>
      rw [List.cons_append] at hr
      injection hr with h1 h2
      have hd : d ∈ jsNatStr a := by
        rw [ha]; exact List.mem_append_right _ (List.mem_cons_self d u')
      have hdig := jsNatStr_all_digits d hd
      rw [← h1] at hdig
      exact absurd hdig (by decide)

/-- A quoted token with a different id is never matched at offset zero. -/
theorem qtok_not_prefix_of_ne {i n : Nat} (hne : n ≠ i) (R : List Char) :
    ¬ qtokChars i <+: qtokChars n ++ R := by
  rintro ⟨u, hu⟩
  rw [qtokChars_decomp i u, qtokChars_decomp n R] at hu
  injection hu with hu1 hu2
  replace hu2 := List.append_cancel_left hu2
  injection hu2 with hu3 hu4
  obtain ⟨hab, -⟩ := natStr_cancel hu4
  exact hne hab.symm

/-! ## Where a match can start inside a well-formed document -/

/-- The text after a plain chunk starts with a non-placeholder character:
a quote (for a token chunk) or a benign replacement character. -/
theorem renderTok_head_not_pchar {t : SpTok} (ht : TokOK t) (x : List Char) :
    ∀ c, (renderTok t ++ x).head? = some c → isPchar c = false := by
  intro c hc
  cases t with
  | q n =>
    simp only [renderTok] at hc
    rw [qtokChars_decomp n x] at hc
    simp only [List.head?_cons, Option.some.injEq] at hc
    rw [← hc]
    decide
  | r s =>
    obtain ⟨hne, hall⟩ := ht
    cases s with
    | nil => exact absurd rfl hne
    | cons d s' =>
      simp only [renderTok, List.cons_append, List.head?_cons,
        Option.some.injEq] at hc
      rw [← hc]
      exact (hall d (List.mem_cons_self d s')).1

/-- The placeholder prefix is never a prefix of a well-formed document's
text: the first chunk either lacks it or is walled off by a quote or a
benign character. -/
theorem pv_not_prefix_render {doc : SpDoc} (hw : WfDoc doc) : ¬ Pv <+: render doc := by
  cases doc with
  | last z => exact fun hp => hw hp.isInfix
  | piece z t rest =>
    rintro ⟨u, hu⟩
    obtain ⟨hz, ht, -⟩ := hw
    rw [show render (SpDoc.piece z t rest) = z ++ (renderTok t ++ render rest) from by
      simp [render]] at hu
    rcases List.append_eq_append_iff.mp hu with ⟨v, hz2, hu2⟩ | ⟨v, hPv, hR⟩
    · exact hz ⟨[], v, by rw [hz2]; simp⟩
    · cases v with
      | nil =>
        rw [List.append_nil] at hPv
        exact hz ⟨[], [], by rw [← hPv]; simp⟩
      | cons d v' =>
        have hd : d ∈ Pv := by
          rw [hPv]; exact List.mem_append_right _ (List.mem_cons_self d v')
        have hdp : isPchar d = true := by simpa [isPchar] using hd
        have hfalse := renderTok_head_not_pchar ht (render rest) d
          (by rw [hR]; simp)
        rw [hfalse] at hdp
        exact Bool.noConfusion hdp

/-- No quoted-token match can start strictly inside a plain chunk. -/
theorem no_start_in_plain {i : Nat} {z₂ R : List Char}
    (hz : ¬ Pv <:+: z₂) (hne : z₂ ≠ [])
    (hR : ∀ c, R.head? = some c → isPchar c = false) :
    ¬ qtokChars i <+: z₂ ++ R := by
  intro hp
  rcases List.prefix_or_prefix_of_prefix (List.prefix_append z₂ R) hp with hq | hq
  · -- z₂ is a prefix of the token
    obtain ⟨u, hu⟩ := hq
    obtain ⟨v, hv⟩ := hp
    rw [← hu, List.append_assoc] at hv
    replace hv := List.append_cancel_left hv
    cases z₂ with
    | nil => exact hne rfl
    | cons c z₂' =>
      rw [qtokChars_eq i, List.cons_append] at hu
      injection hu with hc hu2
      rcases List.append_eq_append_iff.mp hu2 with ⟨w, hPv2, hu3⟩ | ⟨w, hz₂'2, hW⟩
      · cases w with
        | nil =>
          rw [List.append_nil] at hPv2
          exact hz ⟨[c], [], by rw [hPv2]; simp⟩
        | cons d w' =>
          have hd : d ∈ Pv := by
            rw [hPv2]; exact List.mem_append_right _ (List.mem_cons_self d w')
          have hdp : isPchar d = true := by simpa [isPchar] using hd
          have hhd : R.head? = some d := by
            rw [← hv, hu3]
            simp
          rw [hR d hhd] at hdp
          exact Bool.noConfusion hdp
      · exact hz ⟨[c], w, by rw [hz₂'2]; simp⟩
  · exact hz ((pv_infix_qtokChars i).trans hq.isInfix)

/-- A nonempty suffix piece of `mid ++ [q]` is the final `[q]` or starts
with a character of `mid`. -/
theorem suffix_append_singleton {mid z₁ z₂ : List Char} {q : Char}
    (h : z₁ ++ z₂ = mid ++ [q]) (hne : z₂ ≠ []) :
    z₂ = [q] ∨ ∃ d ∈ mid, ∃ z₂', z₂ = d :: z₂' := by
  rcases List.append_eq_append_iff.mp h with ⟨u, hmid, hz⟩ | ⟨u, hz₁, hq⟩
  · cases u with
    | nil => exact Or.inl (by simpa using hz)
    | cons d u' =>
      refine Or.inr ⟨d, ?_, u' ++ [q], by simpa using hz⟩
      rw [hmid]
      exact List.mem_append_right _ (List.mem_cons_self d u')
  · cases u with
    | nil => exact Or.inl (by simpa using hq.symm)
    | cons d u' =>
      rw [List.cons_append] at hq
      injection hq with h1 h2
      have hz2 : z₂ = [] := by
        cases u' with
        | nil => simpa using h2.symm
        | cons e u'' => simp at h2
      exact absurd hz2 hne

/-- No match on token `i` can start inside the quoted token of a different
id `n` (in particular not at its closing quote). -/
theorem no_start_in_qtok {i n : Nat} {doc : SpDoc} (hne : n ≠ i) (hw : WfDoc doc) :
    ∀ z₁ z₂, qtokChars n = z₁ ++ z₂ → z₂ ≠ [] →
      ¬ qtokChars i <+: z₂ ++ render doc := by
  intro z₁ z₂ hsplit hz₂ hp
  cases z₁ with
  | nil =>
    rw [List.nil_append] at hsplit
    subst hsplit
    exact qtok_not_prefix_of_ne hne (render doc) hp
  | cons c z₁' =>
    have hsplit' : z₁' ++ z₂ = tokChars n ++ ['\''] := by
      have hq : qtokChars n = '\'' :: (tokChars n ++ ['\'']) := rfl
      rw [hq, List.cons_append] at hsplit
      injection hsplit with h1 h2
      exact h2.symm
    rcases suffix_append_singleton hsplit' hz₂ with hq | ⟨d, hd, z₂', hz₂'⟩
    · subst hq
      obtain ⟨u, hu⟩ := hp
      rw [qtokChars_decomp i u, List.singleton_append] at hu
      injection hu with h1 h2
      exact pv_not_prefix_render hw ⟨_, h2⟩
    · subst hz₂'
      obtain ⟨u, hu⟩ := hp
      rw [qtokChars_decomp i u, List.cons_append] at hu
      injection hu with h1 h2
      exact tokChars_no_quote d hd h1.symm

/-- No match can start inside a replacement chunk. -/
theorem no_start_in_rchunk {i : Nat} {s : List Char}
    (hs : ∀ c ∈ s, isPchar c = false ∧ c ≠ '\'') :
    ∀ z₁ z₂ R, s = z₁ ++ z₂ → z₂ ≠ [] → ¬ qtokChars i <+: z₂ ++ R := by
  intro z₁ z₂ R hsplit hne hp
  cases z₂ with
  | nil => exact hne rfl
  | cons d z₂' =>
    obtain ⟨u, hu⟩ := hp
    rw [qtokChars_decomp i u, List.cons_append] at hu
    injection hu with h1 h2
    have hd : d ∈ s := by
      rw [hsplit]; exact List.mem_append_right _ (List.mem_cons_self d z₂')
    exact (hs d hd).2 h1.symm

/-! ## The replacement scanner -/

/-- Scanning text free of the placeholder prefix changes nothing. -/
theorem replaceAllAux_no_pv {i : Nat} {repl : List Char} :
    ∀ (fuel : Nat) (z : List Char), ¬ Pv <:+: z →
      replaceAllAux fuel z (qtokChars i) repl = z := by
  intro fuel
  induction fuel with
  | zero => intro z hz; rfl
  | succ f ih =>
    intro z hz
    cases z with
    | nil => rfl
    | cons c rest =>
      simp only [replaceAllAux]
      split
      · rename_i hcond
        exact absurd ((pv_infix_qtokChars i).trans
          (List.isPrefixOf_iff_prefix.mp hcond.2).isInfix) hz
      · rw [ih rest (fun hin => hz (List.infix_cons hin))]

/-- The scanner's result does not depend on the fuel, as long as the fuel
covers the text. -/
theorem replaceAllAux_fuel {pat repl : List Char} :
    ∀ (f₁ f₂ : Nat) (s : List Char), s.length ≤ f₁ → s.length ≤ f₂ →
      replaceAllAux f₁ s pat repl = replaceAllAux f₂ s pat repl := by
  intro f₁
  induction f₁ with
  | zero =>
    intro f₂ s h₁ h₂
    have hnil : s = [] := List.eq_nil_of_length_eq_zero (Nat.le_zero.mp h₁)
    subst hnil
    cases f₂ <;> rfl
  | succ f ih =>
    intro f₂ s h₁ h₂
    cases s with
    | nil => cases f₂ <;> rfl
    | cons c rest =>
      cases f₂ with
      | zero => exact absurd h₂ (by simp)
      | succ g =>
        simp only [replaceAllAux]
        split
        · rename_i hcond
          congr 1
          have hplen : 1 ≤ pat.length := by
            cases hpat : pat with
            | nil => exact absurd hpat hcond.1
            | cons a l => simp
          apply ih <;> simp only [List.length_drop, List.length_cons] at h₁ h₂ ⊢ <;> omega
        · congr 1
          apply ih <;> simp only [List.length_cons] at h₁ h₂ <;> omega

/-- Scanning past a region where no match can start copies it verbatim. -/
theorem replaceAllAux_scan {pat repl : List Char} :
    ∀ (z R : List Char) (f : Nat),
      (∀ z₁ z₂, z = z₁ ++ z₂ → z₂ ≠ [] → ¬ pat <+: (z₂ ++ R)) →
      replaceAllAux (z.length + f) (z ++ R) pat repl
        = z ++ replaceAllAux f R pat repl := by
  intro z
  induction z with
  | nil => intro R f H; simp
  | cons c z' ih =>
    intro R f H
    have hguard : ¬ (pat ≠ [] ∧ pat.isPrefixOf (c :: (z' ++ R)) = true) := by
      rintro ⟨-, hpre⟩
      exact H [] (c :: z') rfl (by simp)
        (by rw [List.cons_append]; exact List.isPrefixOf_iff_prefix.mp hpre)
    simp only [List.length_cons, List.cons_append]
    rw [Nat.add_right_comm]
    simp only [replaceAllAux]
    rw [if_neg hguard]
    rw [ih R f (fun z₁ z₂ h hne => H (c :: z₁) z₂ (by rw [h, List.cons_append]) hne)]

/-- A match at the scan position is replaced, and the scan resumes after
the matched text. -/
theorem replaceAllAux_match {repl w pat' : List Char} {c : Char} (f : Nat) :
    replaceAllAux (f + 1) ((c :: pat') ++ w) (c :: pat') repl
      = repl ++ replaceAllAux f w (c :: pat') repl := by
  have hpre : (c :: pat').isPrefixOf (c :: (pat' ++ w)) = true :=
    List.isPrefixOf_iff_prefix.mpr (by rw [← List.cons_append]; exact List.prefix_append _ _)
  simp only [List.cons_append, replaceAllAux]
  rw [if_pos ⟨by simp, hpre⟩]
  congr 1
  rw [List.length_cons, List.drop_succ_cons]
  simp [List.drop_left]

/-- One global replacement on a well-formed document substitutes exactly
the quoted tokens with the matching id. -/
theorem substDoc_spec {i : Nat} {repl : List Char} :
    ∀ (doc : SpDoc), WfDoc doc → ∀ fuel, (render doc).length ≤ fuel →
      replaceAllAux fuel (render doc) (qtokChars i) repl
        = render (substDoc i repl doc) := by
  intro doc
  induction doc with
  | last z =>
    intro hw fuel hf
    exact replaceAllAux_no_pv fuel z hw
  | piece z t rest ih =>
    intro hw fuel hf
    obtain ⟨hz, ht, hrest⟩ := hw
    have hR : render (SpDoc.piece z t rest) = z ++ (renderTok t ++ render rest) := by
      simp [render]
    rw [hR] at hf ⊢
    rw [replaceAllAux_fuel fuel ((z ++ (renderTok t ++ render rest)).length)
      _ hf (le_refl _)]
    have HZ : ∀ z₁ z₂, z = z₁ ++ z₂ → z₂ ≠ [] →
        ¬ qtokChars i <+: z₂ ++ (renderTok t ++ render rest) := by
      intro z₁ z₂ hsp hne
      refine no_start_in_plain (fun hin => hz (hin.trans ?_)) hne
        (renderTok_head_not_pchar ht (render rest))
      exact List.IsSuffix.isInfix ⟨z₁, hsp.symm⟩
    rw [show (z ++ (renderTok t ++ render rest)).length
      = z.length + (renderTok t ++ render rest).length from by simp]
    rw [replaceAllAux_scan z (renderTok t ++ render rest)
      ((renderTok t ++ render rest).length) HZ]
    cases t with
    | r s =>
      obtain ⟨hne, hall⟩ := ht
      rw [show renderTok (SpTok.r s) = s from rfl]
      rw [show (s ++ render rest).length = s.length + (render rest).length from by simp]
      rw [replaceAllAux_scan s (render rest) ((render rest).length)
        (fun z₁ z₂ h hne' => no_start_in_rchunk hall z₁ z₂ (render rest) h hne')]
      rw [ih hrest ((render rest).length) (le_refl _)]
      simp [render, substDoc, renderTok]
    | q n =>
      by_cases hni : n = i
      · subst hni
        rw [show renderTok (SpTok.q n) = qtokChars n from rfl]
        have hqc : qtokChars n = '\'' :: (tokChars n ++ ['\'']) := rfl
        rw [show (qtokChars n ++ render rest).length
          = ((tokChars n ++ ['\'']).length + (render rest).length) + 1 from by
            rw [hqc]; simp; omega]
        rw [hqc]
        rw [replaceAllAux_match ((tokChars n ++ ['\'']).length + (render rest).length)]
        rw [replaceAllAux_fuel ((tokChars n ++ ['\'']).length + (render rest).length)
          ((render rest).length) _ (by omega) (le_refl _)]
        rw [← hqc]
        rw [ih hrest ((render rest).length) (le_refl _)]
        simp [render, substDoc, renderTok]
      · rw [show renderTok (SpTok.q n) = qtokChars n from rfl]
        rw [show (qtokChars n ++ render rest).length
          = (qtokChars n).length + (render rest).length from by simp]
        rw [replaceAllAux_scan (qtokChars n) (render rest) ((render rest).length)
          (no_start_in_qtok hni hrest)]
        rw [ih hrest ((render rest).length) (le_refl _)]
        simp [render, substDoc, renderTok, hni]

/-! ## Substitution bookkeeping on documents -/

/-- Substitution removes the id it substitutes and introduces no other. -/
theorem docQIds_substDoc {i : Nat} {repl : List Char} :
    ∀ (doc : SpDoc) (n : Nat), n ∈ docQIds (substDoc i repl doc) →
      n ∈ docQIds doc ∧ n ≠ i := by
  intro doc
  induction doc with
  | last z => intro n hn; simp [substDoc, docQIds] at hn
  | piece z t rest ih =>
    intro n hn
    cases t with
    | q m =>
      by_cases hmi : m = i
      · simp only [substDoc, if_pos hmi, docQIds, List.nil_append] at hn
        obtain ⟨h1, h2⟩ := ih n hn
        refine ⟨?_, h2⟩
        simp only [docQIds, List.singleton_append]
        exact List.mem_cons_of_mem m h1
      · simp only [substDoc, if_neg hmi, docQIds, List.singleton_append,
          List.mem_cons] at hn
        rcases hn with rfl | hn
        · exact ⟨by simp [docQIds], hmi⟩
        · obtain ⟨h1, h2⟩ := ih n hn
          refine ⟨?_, h2⟩
          simp only [docQIds, List.singleton_append]
          exact List.mem_cons_of_mem m h1
    | r s =>
      simp only [substDoc, docQIds, List.nil_append] at hn
      obtain ⟨h1, h2⟩ := ih n hn
      exact ⟨by simpa [docQIds] using h1, h2⟩

/-- Substituting a benign replacement preserves well-formedness. -/
theorem wfDoc_substDoc {i : Nat} {repl : List Char}
    (hne : repl ≠ []) (hb : ∀ c ∈ repl, isPchar c = false ∧ c ≠ '\'') :
    ∀ (doc : SpDoc), WfDoc doc → WfDoc (substDoc i repl doc) := by
  intro doc
  induction doc with
  | last z => intro hw; exact hw
  | piece z t rest ih =>
    intro hw
    obtain ⟨hz, ht, hrest⟩ := hw
    refine ⟨hz, ?_, ih hrest⟩
    cases t with
    | q m =>
      by_cases hmi : m = i
      · simp only [if_pos hmi]
        exact ⟨hne, hb⟩
      · simp only [if_neg hmi]
        trivial
    | r s => exact ht

/-- A well-formed document with no quoted tokens left holds no occurrence
of the placeholder prefix at all. -/
theorem no_pv_of_no_qids :
    ∀ (doc : SpDoc), WfDoc doc → docQIds doc = [] → ¬ Pv <:+: render doc := by
  intro doc
  induction doc with
  | last z => intro hw _; exact hw
  | piece z t rest ih =>
    intro hw hq
    obtain ⟨hz, ht, hrest⟩ := hw
    cases t with
    | q n => simp [docQIds] at hq
    | r s =>
      simp only [docQIds, List.nil_append] at hq
      intro hin
      rw [show render (SpDoc.piece z (SpTok.r s) rest) = z ++ (s ++ render rest) from by
        simp [render, renderTok]] at hin
      obtain ⟨hne, hs⟩ := ht
      rcases infix_append_cases hin with h | h | ⟨l₁, l₂, hPv, h1, h2, hsuf, hpre⟩
      · exact hz h
      · rcases infix_append_cases h with h' | h' | ⟨l₁, l₂, hPv, h1, h2, hsuf, hpre⟩
        · have hmem : 'S' ∈ s := h'.subset (by decide)
          exact absurd (hs 'S' hmem).1 (by decide)
        · exact ih hrest hq h'
        · cases l₁ with
          | nil => exact h1 rfl
          | cons d l₁' =>
            have hdPv : d ∈ Pv := by
              rw [hPv]; exact List.mem_append_left _ (List.mem_cons_self d l₁')
            have hds : d ∈ s := hsuf.subset (List.mem_cons_self d l₁')
            have hth : isPchar d = true := by simpa [isPchar] using hdPv
            rw [(hs d hds).1] at hth
            exact Bool.noConfusion hth
      · cases l₂ with
        | nil => exact h2 rfl
        | cons d l₂' =>
          have hdPv : d ∈ Pv := by
            rw [hPv]; exact List.mem_append_right _ (List.mem_cons_self d l₂')
          obtain ⟨u, hu⟩ := hpre
          cases s with
          | nil => exact hne rfl
          | cons e s' =>
            rw [List.cons_append, List.cons_append] at hu
            injection hu with h1' h2'
            have hthe := (hs e (List.mem_cons_self e s')).1
            rw [← h1'] at hthe
            have hth : isPchar d = true := by simpa [isPchar] using hdPv
            rw [hthe] at hth
            exact Bool.noConfusion hth

/-! ## The css replacement values are benign -/

theorem benign_append {a b : String}
    (ha : ∀ c ∈ a.data, isPchar c = false ∧ c ≠ '\'')
    (hb : ∀ c ∈ b.data, isPchar c = false ∧ c ≠ '\'') :
    ∀ c ∈ (a ++ b).data, isPchar c = false ∧ c ≠ '\'' := by
  intro c hc
  rw [String.data_append] at hc
  rcases List.mem_append.mp hc with h | h
  · exact ha c h
  · exact hb c h

theorem istr_benign (m : Int) : ∀ c ∈ (istr m).data, isPchar c = false ∧ c ≠ '\'' := by
  intro c hc
  exact numChar_benign (jsIntStr_all_numChars c hc)

/-- Every character of a computed css replacement value is benign, and the
value is nonempty. -/
theorem cssReplacement_benign (p : ProcEntry) (sx sy : Int) :
    (∀ c ∈ (cssReplacementFor p sx sy).data, isPchar c = false ∧ c ≠ '\'') ∧
    (cssReplacementFor p sx sy).data ≠ [] := by
  unfold cssReplacementFor
  dsimp only
  constructor
  · refine benign_append (benign_append (benign_append ?_ ?_) ?_) ?_
    · split_ifs with h1 h2
      · decide
      · decide
      · exact benign_append (benign_append (by decide) (istr_benign sx)) (by decide)
    · decide
    · exact benign_append (benign_append (by decide) (istr_benign sy)) (by decide)
    · cases htw : p.data.totalwidth with
      | none =>
        cases hth : p.data.totalheight with
        | none => dsimp only; decide
        | some th => dsimp only; decide
      | some tw =>
        cases hth : p.data.totalheight with
        | none => dsimp only; decide
        | some th =>
          dsimp only
          split_ifs with hcond
          · repeat
              first
              | exact istr_benign _
              | refine benign_append ?_ ?_
              | decide
          · decide
  · intro hnil
    rw [String.data_append, String.data_append, String.data_append] at hnil
    rcases List.append_eq_nil.mp hnil with ⟨hl, -⟩
    rcases List.append_eq_nil.mp hl with ⟨hl2, -⟩
    rcases List.append_eq_nil.mp hl2 with ⟨-, hsp⟩
    exact absurd hsp (by decide)

/-- The pattern string the source builds for a record's token, as a
character list, is the quoted token. -/
theorem quoted_token_data (m : Nat) :
    ("'" ++ tokenOf "SPRITE_PLACEHOLDER" m ++ "'").data = qtokChars m := by
  simp [tokenOf, qtokChars, tokChars, Pv, String.data_append]

/-! ## Substitution through `makeMap` and the build queue -/

/-- Whatever geometry a `makeMap` step computes, its css output is the
global replacement of the record's quoted token by the computed css
replacement value. -/
theorem makeMapStep_css {cfg : SpriteConfig} {cw : Int} {p : ProcEntry} {curY : Int}
    {css : String} {curY' : Int} {repl' css' : String} {ops' : List DrawOp}
    (h : makeMapStep cfg cw p curY css = some (curY', repl', css', ops')) :
    ∃ sx, repl' = cssReplacementFor p sx curY ∧
      css' = sReplaceAll css ("'" ++ tokenOf cfg.placeholder p.imgId ++ "'") repl' := by
  unfold makeMapStep at h
  rcases Option.map_eq_some'.mp h with ⟨r, -, hf⟩
  dsimp only at hf
  simp only [Prod.mk.injEq] at hf
  obtain ⟨-, h2, h3, -⟩ := hf
  refine ⟨r.1, h2.symm, ?_⟩
  rw [← h3, ← h2]

/-- The `makeMap` loop on a well-formed document yields a well-formed
document whose remaining token ids avoid every processed record. -/
theorem makeMapAux_subst {cfg : SpriteConfig} {cw : Int}
    (hph : cfg.placeholder = "SPRITE_PLACEHOLDER") :
    ∀ (ps : List ProcEntry) (curY : Int) (doc : SpDoc), WfDoc doc →
      ∀ out rep ops, makeMapAux cfg cw ps curY ⟨render doc⟩ = some (out, rep, ops) →
      ∃ doc', WfDoc doc' ∧ out = ⟨render doc'⟩ ∧
        ∀ n ∈ docQIds doc', n ∈ docQIds doc ∧ n ∉ ps.map (fun p => p.imgId) := by
  intro ps
  induction ps with
  | nil =>
    intro curY doc hw out rep ops h
    simp only [makeMapAux, Option.some.injEq, Prod.mk.injEq] at h
    exact ⟨doc, hw, h.1.symm, fun n hn => ⟨hn, by simp⟩⟩
  | cons p ps' ih =>
    intro curY doc hw out rep ops h
    simp only [makeMapAux] at h
    cases hstep : makeMapStep cfg cw p curY ⟨render doc⟩ with
    | none => rw [hstep] at h; exact absurd h (by simp)
    | some q =>
      obtain ⟨curY', repl', css', ops'⟩ := q
      rw [hstep] at h
      dsimp only at h
      cases hrec : makeMapAux cfg cw ps' curY' css' with
      | none => rw [hrec] at h; exact absurd h (by simp)
      | some q2 =>
        obtain ⟨out₁, rep₁, ops₁⟩ := q2
        rw [hrec] at h
        simp only [Option.map_some', Option.some.injEq, Prod.mk.injEq] at h
        obtain ⟨hout1, -, -⟩ := h
        obtain ⟨sx, hrepl, hcss⟩ := makeMapStep_css hstep
        obtain ⟨hben, hbne⟩ := cssReplacement_benign p sx curY
        have hcss2 : css'
            = ⟨render (substDoc p.imgId (cssReplacementFor p sx curY).data doc)⟩ := by
          rw [hcss, hrepl]
          unfold sReplaceAll
          apply congrArg String.mk
          rw [hph, quoted_token_data]
          exact substDoc_spec doc hw _ (le_refl _)
        rw [hcss2] at hrec
        obtain ⟨doc', hw', hout', hmem'⟩ := ih curY'
          (substDoc p.imgId (cssReplacementFor p sx curY).data doc)
          (wfDoc_substDoc hbne hben doc hw) out₁ rep₁ ops₁ hrec
        refine ⟨doc', hw', by rw [← hout1]; exact hout', ?_⟩
        intro n hn
        obtain ⟨hn1, hn2⟩ := hmem' n hn
        obtain ⟨hn3, hn4⟩ := docQIds_substDoc _ n hn1
        refine ⟨hn3, ?_⟩
        simp only [List.map_cons, List.mem_cons]
        rintro (h' | h')
        · exact hn4 h'
        · exact hn2 h'

/-- A completed build ends in `makeMap` on the final state, and its last
callback invocation carries the substituted stylesheet. -/
theorem buildAux_completed_calls {decode : Decoder} {cfg : SpriteConfig} {css : String} :
    ∀ (pending : List RegEntry) (st : SpriteState) (errArg : Option String)
      (calls : List CbCall) (r : BuildResult),
      buildAux decode cfg css pending st errArg calls = some (.completed r) →
      ∃ m, makeMap cfg r.final css = some m ∧
        r.calls.getLast? = some (.ok m.1) ∧ r.fileWritten = true := by
  intro pending
  induction pending with
  | nil =>
    intro st errArg calls r h
    simp only [buildAux] at h
    cases hm : makeMap cfg st css with
    | none => rw [hm] at h; exact absurd h (by simp)
    | some m =>
      rw [hm] at h
      simp only [Option.map_some', Option.some.injEq] at h
      cases h
      refine ⟨m, hm, ?_, rfl⟩
      dsimp only
      exact List.getLast?_concat _
  | cons e rest ih =>
    intro st errArg calls r h
    simp only [buildAux] at h
    cases hp : processImage decode cfg { st with images := rest } e with
    | error msg =>
      rw [hp] at h
      simp only [Option.some.injEq] at h
      exact absurd h (by simp)
    | ok res =>
      cases res with
      | error err =>
        rw [hp] at h
        exact ih _ _ _ r h
      | ok st'' =>
        rw [hp] at h
        exact ih _ _ _ r h

/-- The emitted token string, as a character list, is the bare token. -/
theorem token_data (m : Nat) :
    (tokenOf "SPRITE_PLACEHOLDER" m).data = tokChars m := by
  simp [tokenOf, tokChars, Pv, String.data_append]

/-- C4: the claim fails as stated.  Register `a.png` (one token, id 1) and
hand `build` a text in which the emitted token appears as a literal
substring — but bare, not single-quoted.  The build completes, writes the
file, and the final callback text still contains the token: the
substitution regex built from the placeholder matches only the quoted form
`'SPRITE_PLACEHOLDER(id)'`. -/
theorem c4_counterexample :
    ∃ st r out,
      runRegs initState [⟨"a.png", 7, none⟩] = .ok ([1], st) ∧
      (tokenOf "SPRITE_PLACEHOLDER" 1).data <:+:
        ("x SPRITE_PLACEHOLDER(1) y" : String).data ∧
      build (fun _ => .ok (20, 20)) {} st "x SPRITE_PLACEHOLDER(1) y"
        = some (.completed r) ∧
      r.fileWritten = true ∧
      r.calls.getLast? = some (.ok out) ∧
      (tokenOf "SPRITE_PLACEHOLDER" 1).data <:+: out.data := by
  refine ⟨_, _, _, rfl, by decide, rfl, rfl, rfl, by decide⟩

/-- C4 (amended): tokens reach the stylesheet single-quoted, as the stylus
value of the `sprite()` call.  When the text handed to `build` is a
well-formed quoted-token document (every occurrence of the placeholder
prefix lies inside some `'SPRITE_PLACEHOLDER(id)'` with a registered id)
and every registered image decodes, then after the build completes the
final callback text holds zero occurrences of the placeholder prefix —
hence zero occurrences of any placeholder token, quoted or bare. -/
theorem c4_quoted_substitution {decode : Decoder} {cfg : SpriteConfig}
    {regs : List RegInput} {ids : List Nat} {st : SpriteState} {doc : SpDoc}
    {r : BuildResult}
    (hph : cfg.placeholder = "SPRITE_PLACEHOLDER")
    (hr : runRegs initState regs = .ok (ids, st))
    (hok : ∀ e ∈ st.images, DecodeOK decode cfg e)
    (hw : WfDoc doc)
    (hq : ∀ n ∈ docQIds doc, n ∈ ids)
    (hb : build decode cfg st ⟨render doc⟩ = some (.completed r)) :
    ∃ out, r.calls.getLast? = some (.ok out) ∧
      ¬ Pv <:+: out.data ∧ ∀ m, ¬ tokChars m <:+: out.data := by
  obtain ⟨m, hmm, hlast, -⟩ := buildAux_completed_calls st.images st none [] r hb
  obtain ⟨out₁, rep₁, ops₁⟩ := m
  have hinit : RegInv initState :=
    ⟨fun e he => absurd he (List.not_mem_nil e), List.Pairwise.nil⟩
  obtain ⟨-, -, hpr, -, -, -, hlen, -, hk⟩ := runRegs_inv regs initState ids st hinit hr
  have hmap := buildAux_all_processed st.images st none [] r rfl hok hb
  rw [hpr] at hmap
  simp only [initState, List.map_nil, List.nil_append] at hmap
  obtain ⟨doc', hw', hout, hmem⟩ := makeMapAux_subst hph r.final.processedImages 0
    doc hw out₁ rep₁ ops₁ hmm
  have hq' : docQIds doc' = [] := by
    rw [List.eq_nil_iff_forall_not_mem]
    intro n hn
    obtain ⟨hn1, hn2⟩ := hmem n hn
    obtain ⟨kf, hkf⟩ := List.mem_iff_get.mp (hq n hn1)
    have hklt : kf.1 < regs.length := by rw [← hlen]; exact kf.2
    obtain ⟨d, -, -, e, he, heid, -⟩ := hk kf.1 hklt kf.2
    apply hn2
    rw [hmap]
    exact List.mem_map.mpr ⟨e, he, by rw [heid]; exact hkf⟩
  refine ⟨out₁, hlast, ?_, ?_⟩
  · rw [hout]
    exact no_pv_of_no_qids doc' hw' hq'
  · intro mId hinf
    rw [hout] at hinf
    exact no_pv_of_no_qids doc' hw' hq'
      ((List.prefix_append Pv ('(' :: (jsNatStr mId ++ [')']))).isInfix.trans hinf)

/-- C4 witness: one registration, the stylesheet `x 'SPRITE_PLACEHOLDER(1)' y`
as a quoted-token document; after the build no placeholder text remains. -/
theorem c4_quoted_substitution_witness :
    ∃ ids st r out,
      runRegs initState [⟨"a.png", 1, none⟩] = .ok (ids, st) ∧
      build (fun _ => .ok (20, 20)) {} st
        ⟨render (SpDoc.piece "x ".data (SpTok.q 1) (SpDoc.last " y".data))⟩
        = some (.completed r) ∧
      r.calls.getLast? = some (.ok out) ∧
      ¬ Pv <:+: out.data ∧ ∀ m, ¬ tokChars m <:+: out.data := by
  obtain ⟨⟨ids, st⟩, hru, hok, r, hb⟩ :
      ∃ p, runRegs initState [⟨"a.png", 1, none⟩] = .ok p ∧
        (∀ e ∈ p.2.images, DecodeOK (fun _ => .ok (20, 20)) ({} : SpriteConfig) e) ∧
        ∃ r, build (fun _ => .ok (20, 20)) {} p.2
          ⟨render (SpDoc.piece "x ".data (SpTok.q 1) (SpDoc.last " y".data))⟩
          = some (.completed r) := by
    refine ⟨_, rfl, ?_, _, rfl⟩
    intro e he
    simp only [initState, List.nil_append, List.mem_singleton] at he
    subst he
    exact ⟨by decide, 20, 20, rfl⟩
  have hids : ids = [1] := by
    have h2 : Except.map Prod.fst (runRegs initState [⟨"a.png", 1, none⟩])
        = Except.ok [1] := by decide
    rw [hru] at h2
    simpa [Except.map] using h2
  subst hids
  have hw : WfDoc (SpDoc.piece "x ".data (SpTok.q 1) (SpDoc.last " y".data)) := by
    refine ⟨?_, trivial, ?_⟩
    · show ¬ Pv <:+: "x ".data
      decide
    · show ¬ Pv <:+: " y".data
      decide
  have hqids : ∀ n ∈ docQIds (SpDoc.piece "x ".data (SpTok.q 1) (SpDoc.last " y".data)),
      n ∈ ([1] : List Nat) := by decide
  obtain ⟨out, h1, h2, h3⟩ :=
    c4_quoted_substitution rfl hru hok hw hqids hb
  exact ⟨[1], st, r, out, hru, hb, h1, h2, h3⟩

end StylusSprite
